import Mathlib

/-!
Verification of the keyframe-cycle expansion transform and of the
expression-stripping pass of the lottie-animation blocks.

The JavaScript functions `expandTmCycles` and `stripRemainingExpressions`
(src/blocks/lottie-animation-v8/lottie-animation-v8.js, together with the
textually duplicated `expandTmCycles` of the unnamed block file) are
embedded shallowly:

* JSON documents are modelled by the inductive type `JVal`.  JavaScript
  numbers are idealised as exact rationals; the IEEE value NaN is
  represented by `JVal.num none`.  Infinities, the 2^53 integer bound and
  shortest-round-trip double printing lie outside this idealisation; none
  of them is reachable from a decoded JSON animation document, which is
  the only way the transform is invoked.
* In-place mutation becomes functional update.  A decoded JSON document is
  a tree (JSON.parse never produces sharing), so tree equality coincides
  with the per-object mutation the code performs.
* A thrown TypeError is modelled by `Except.error ()`.  The block files
  are ES modules, hence strict mode: assigning a property to a primitive
  value throws.
* `stripRemainingExpressions` is additionally embedded over an explicit
  heap of object identities, because its visited set is keyed by object
  identity and the function must tolerate cyclic object graphs.
-/

/-- A JSON-shaped JavaScript value.  `num none` is NaN (JavaScript numbers
idealised as exact rationals); object fields are kept in insertion order
with distinct keys, exactly as JavaScript objects hold them. -/
inductive JVal : Type where
  | null : JVal
  | bool : Bool → JVal
  | num : Option ℚ → JVal
  | str : String → JVal
  | arr : List JVal → JVal
  | obj : List (String × JVal) → JVal
deriving Repr

/-- Shorthand for a (non-NaN) number value. -/
def jq (q : ℚ) : JVal := .num (some q)

/-- Property lookup: the binding of key `k` (JavaScript object keys are
unique, so first-match lookup is plain property read). -/
def lookupField : List (String × JVal) → String → Option JVal
  | [], _ => none
  | (k1, v) :: r, k => if k1 = k then some v else lookupField r k

/-- Property assignment: replace the binding in place (JavaScript keeps the
insertion position of an existing key) or append a fresh one at the end. -/
def setField : List (String × JVal) → String → JVal → List (String × JVal)
  | [], k, v => [(k, v)]
  | (k1, v1) :: r, k, v =>
      if k1 = k then (k, v) :: r else (k1, v1) :: setField r k v

/-- The delete operator on an object field. -/
def deleteField (fs : List (String × JVal)) (k : String) : List (String × JVal) :=
  fs.filter (fun f => f.1 != k)

/-- JavaScript truthiness of a possibly-undefined value (`none` plays the
role of `undefined`). -/
def truthy : Option JVal → Bool
  | none => false
  | some .null => false
  | some (.bool b) => b
  | some (.num none) => false
  | some (.num (some q)) => q != 0
  | some (.str s) => s != ""
  | some (.arr _) => true
  | some (.obj _) => true

/-- Property read `v.k`: a TypeError on `null`, `undefined` on primitives
and arrays (the property names this program reads never exist on those),
field lookup on objects. -/
def jsGet : JVal → String → Except Unit (Option JVal)
  | .null, _ => .error ()
  | .obj fs, k => .ok (lookupField fs k)
  | _, _ => .ok none

/-- Substring containment over character lists. -/
def hasSubstr (pat : List Char) : List Char → Bool
  | [] => pat.isEmpty
  | c :: r => pat.isPrefixOf (c :: r) || hasSubstr pat r

/-- String.prototype.includes. -/
def strIncludes (s pat : String) : Bool := hasSubstr pat.data s.data

/-- Kernel-computable rational addition (the library operations on `ℚ` are
irreducible; these `mkRat` forms evaluate inside `decide` and `rfl` and are
proved equal to the library operations below). -/
def qadd (a b : ℚ) : ℚ := mkRat (a.num * b.den + b.num * a.den) (a.den * b.den)

/-- Kernel-computable rational subtraction. -/
def qsub (a b : ℚ) : ℚ := mkRat (a.num * b.den - b.num * a.den) (a.den * b.den)

/-- Kernel-computable rational multiplication. -/
def qmul (a b : ℚ) : ℚ := mkRat (a.num * b.num) (a.den * b.den)

/-- Kernel-computable rational division. -/
def qdiv (a b : ℚ) : ℚ :=
  if 0 ≤ b.num then mkRat (a.num * b.den) (a.den * b.num.toNat)
  else mkRat (-(a.num * b.den)) (a.den * (-b.num).toNat)

/-- Kernel-computable rational negation. -/
def qneg (a : ℚ) : ℚ := mkRat (-a.num) a.den

/-- Kernel-computable test for `q ≤ 0`. -/
def qle0 (q : ℚ) : Bool := q.num ≤ 0

/-- Kernel-computable power of ten in `ℚ`. -/
def qpow10 (n : ℕ) : ℚ := mkRat (Int.ofNat (10 ^ n)) 1

/-- Kernel-computable embedding of a natural number into `ℚ`. -/
def qofNat (n : ℕ) : ℚ := mkRat (Int.ofNat n) 1

/-- Whitespace accepted by the JavaScript string-to-number conversion
(the common ASCII forms; the exotic Unicode space code points do not occur
in animation documents). -/
def isWs (c : Char) : Bool :=
  c = ' ' || c = '\t' || c = '\n' || c = '\r' || c = '\x0b' || c = '\x0c'

def isDigitCh (c : Char) : Bool := '0' ≤ c && c ≤ '9'

def digitsVal (l : List Char) : ℕ :=
  l.foldl (fun a c => a * 10 + (c.toNat - 48)) 0

/-- Split a character list at the first character satisfying `p`; the
second component is `none` when no such character occurs. -/
def splitAtCh (p : Char → Bool) : List Char → List Char × Option (List Char)
  | [] => ([], none)
  | c :: r =>
      if p c then ([], some r)
      else
        let (a, b) := splitAtCh p r
        (c :: a, b)

/-- Scale a rational by a (possibly negative) power of ten. -/
def scalePow10 (q : ℚ) (z : ℤ) : ℚ :=
  if 0 ≤ z then qmul q (qpow10 z.toNat) else qdiv q (qpow10 (-z).toNat)

/-- Exponent part of a decimal numeral. -/
def parseExp (l : List Char) : Option ℤ :=
  match l with
  | '-' :: r => if r.isEmpty || !r.all isDigitCh then none else some (-(digitsVal r : ℤ))
  | '+' :: r => if r.isEmpty || !r.all isDigitCh then none else some (digitsVal r : ℤ)
  | r => if r.isEmpty || !r.all isDigitCh then none else some (digitsVal r : ℤ)

/-- Unsigned decimal numeral `digits [. digits] [e [sign] digits]`. -/
def parseUnsigned (l : List Char) : Option ℚ :=
  let (mant, expPart) := splitAtCh (fun c => c = 'e' || c = 'E') l
  let (ipd, fpOpt) := splitAtCh (fun c => c = '.') mant
  let fpd := fpOpt.getD []
  if ipd.isEmpty && fpd.isEmpty then none
  else if !ipd.all isDigitCh || !fpd.all isDigitCh then none
  else
    let base : ℚ := qadd (qofNat (digitsVal ipd)) (qdiv (qofNat (digitsVal fpd)) (qpow10 fpd.length))
    match expPart with
    | none => some base
    | some e =>
        match parseExp e with
        | none => none
        | some z => some (scalePow10 base z)

/-- ToNumber on a string: trimmed decimal numerals; the empty (or
all-whitespace) string is 0; anything else is NaN.  The hexadecimal,
octal, binary and Infinity forms lie outside the rational idealisation
and are mapped to NaN here; they do not occur in animation documents. -/
def strToNum (s : String) : Option ℚ :=
  let t := ((s.data.dropWhile isWs).reverse.dropWhile isWs).reverse
  if t.isEmpty then some 0
  else
    match t with
    | '-' :: r => (parseUnsigned r).map qneg
    | '+' :: r => parseUnsigned r
    | r => parseUnsigned r

/-- Decimal rendering of a number (ToString).  Exact for integers and for
rationals with a terminating decimal expansion, which covers every value a
decoded JSON document can contain; NaN prints as "NaN". -/
def numToStr (v : Option ℚ) : String :=
  match v with
  | none => "NaN"
  | some q =>
      if q.den = 1 then toString q.num
      else
        match (List.range (q.den + 1)).find? (fun k => 10 ^ k % q.den = 0) with
        | some k =>
            let m := (q.num * (10 ^ k : ℤ) / (q.den : ℤ)).natAbs
            let ipart := m / 10 ^ k
            let fpart := m % 10 ^ k
            let fstr := Nat.toDigits 10 fpart
            let pad := List.replicate (k - fstr.length) '0'
            (if q.num < 0 then "-" else "") ++ toString ipart ++ "." ++
              String.mk (pad ++ fstr)
        | none => toString q

mutual
/-- ToString of a value as the + operator and Array.prototype.join see it:
plain objects print as "[object Object]", arrays join their items with
commas (null items print as the empty string inside a join). -/
def jsToStr : JVal → String
  | .null => "null"
  | .bool b => if b then "true" else "false"
  | .num v => numToStr v
  | .str s => s
  | .arr xs => jsToStrItems xs
  | .obj _ => "[object Object]"

def jsToStrItems : List JVal → String
  | [] => ""
  | [.null] => ""
  | [x] => jsToStr x
  | .null :: r => "," ++ jsToStrItems r
  | x :: r => jsToStr x ++ "," ++ jsToStrItems r
end

/-- ToNumber of a possibly-undefined value: `undefined` is NaN, `null` is
0, booleans are 0 and 1, strings parse as decimal numerals, arrays and
objects convert through their string form. -/
def jsToNum : Option JVal → Option ℚ
  | none => none
  | some .null => some 0
  | some (.bool b) => some (if b then 1 else 0)
  | some (.num v) => v
  | some (.str s) => strToNum s
  | some (.arr xs) => strToNum (jsToStr (.arr xs))
  | some (.obj fs) => strToNum (jsToStr (.obj fs))

/-- NaN-propagating subtraction of two coerced values. -/
def jsSub (a b : Option JVal) : Option ℚ :=
  match jsToNum a, jsToNum b with
  | some x, some y => some (qsub x y)
  | _, _ => none

/-- NaN-propagating division.  A zero divisor would give an infinity in
JavaScript; the call site has already excluded it through the
`cycleDur <= 0` guard, so it is mapped to NaN here. -/
def jsDivQ (a b : Option ℚ) : Option ℚ :=
  match a, b with
  | some x, some y => if y = 0 then none else some (qdiv x y)
  | _, _ => none

/-- Ceiling of a rational, computably (`Rat.den` is positive and coprime
to the numerator, so a rational is an integer exactly when its
denominator is 1). -/
def ratCeil (q : ℚ) : ℤ :=
  if q.den = 1 then q.num else q.num.fdiv q.den + 1

/-- Math.ceil, NaN-propagating. -/
def jsCeil : Option ℚ → Option ℤ
  | none => none
  | some q => some (ratCeil q)

/-- The number of iterations of `for (let c = 0; c < cycles; c += 1)`:
none when `cycles` is NaN (the comparison is always false), otherwise the
non-negative part of `cycles`. -/
def cyclesIters : Option ℤ → ℕ
  | none => 0
  | some z => z.toNat

/-- The expression `kf.t + off` (`off` is a number): string-typed or
object-typed left operands concatenate, everything else adds numerically
with NaN propagation. -/
def jsAddVal (t : Option JVal) (off : Option ℚ) : JVal :=
  match t with
  | some (.str s) => .str (s ++ numToStr off)
  | some (.arr xs) => .str (jsToStr (.arr xs) ++ numToStr off)
  | some (.obj fs) => .str (jsToStr (.obj fs) ++ numToStr off)
  | _ =>
      .num (match jsToNum t, off with
            | some x, some y => some (qadd x y)
            | _, _ => none)

mutual
/-- The deep copy `JSON.parse(JSON.stringify(v))`: the identity on JSON
trees, except that a NaN number serialises as `null`. -/
def jsonRound : JVal → JVal
  | .null => .null
  | .bool b => .bool b
  | .num none => .null
  | .num (some q) => .num (some q)
  | .str s => .str s
  | .arr xs => .arr (jsonRoundList xs)
  | .obj fs => .obj (jsonRoundFields fs)

def jsonRoundList : List JVal → List JVal
  | [] => []
  | v :: r => jsonRound v :: jsonRoundList r

def jsonRoundFields : List (String × JVal) → List (String × JVal)
  | [] => []
  | (k, v) :: r => (k, jsonRound v) :: jsonRoundFields r
end

mutual
/-- NaN-free JSON trees: the values `JSON.parse` can actually produce.
On these the deep copy is the identity. -/
def goodJson : JVal → Bool
  | .null => true
  | .bool _ => true
  | .num none => false
  | .num (some _) => true
  | .str _ => true
  | .arr xs => goodJsonList xs
  | .obj fs => goodJsonFields fs

def goodJsonList : List JVal → Bool
  | [] => true
  | v :: r => goodJson v && goodJsonList r

def goodJsonFields : List (String × JVal) → Bool
  | [] => true
  | (_, v) :: r => goodJson v && goodJsonFields r
end

/-- The guard `cycleDur <= 0`: false when the value is NaN (a NaN
comparison is always false in JavaScript). -/
def qle0Opt : Option ℚ → Bool
  | none => false
  | some q => qle0 q

/-- One step of `kfs.forEach` inside the expansion loop: deep-copy the
keyframe and assign the shifted time to the copy.  Reading `kf.t` throws
on a null keyframe; in strict mode (the block files are ES modules)
assigning a property of a primitive copy throws a TypeError.  An array
keyframe silently receives an expando `t` property, which no JSON
serialisation or later traversal of this program can observe, so it is
dropped here. -/
def shiftKf (off : Option ℚ) (kf : JVal) : Except Unit JVal := do
  let t ← jsGet kf "t"
  let newT := jsAddVal t off
  match jsonRound kf with
  | .obj fs => pure (.obj (setField fs "t" newT))
  | .arr xs => pure (.arr xs)
  | _ => .error ()

/-- The `for (let c = 0; c < cycles; c += 1)` loop: `n` concatenated
copies of the keyframe list, copy `c` shifted by `c * cycleDur`. -/
def buildExpanded (n : ℕ) (cycleDur : Option ℚ) (kfs : List JVal) :
    Except Unit (List JVal) := do
  let blocks ← (List.range n).mapM
    (fun c => kfs.mapM (shiftKf (cycleDur.map (fun cd => qmul (qofNat c) cd))))
  pure blocks.flatten

/-- The body of `layers.forEach` in `expandTmCycles`: expand one layer, or
return it unchanged when a guard condition fires.  Destructuring a null
layer throws; calling `includes` on a truthy `tm.x` that is neither a
string nor an array throws. -/
def processLayer (layer : JVal) : Except Unit JVal :=
  match layer with
  | .null => .error ()
  | .obj lfs =>
      match lookupField lfs "tm" with
      | some (.obj tfs) =>
          match lookupField tfs "x" with
          | some xv =>
              if !truthy (some xv) then pure (JVal.obj lfs)
              else do
                let hasMarker ← match xv with
                  | .str s => pure (strIncludes s "loopOut")
                  | .arr xs => pure (xs.any (fun v => match v with
                      | .str s => s == "loopOut"
                      | _ => false))
                  | _ => .error ()
                if !hasMarker then pure (JVal.obj lfs)
                else
                  match lookupField tfs "k" with
                  | some (.arr kfs) =>
                      if kfs.length < 2 then pure (JVal.obj lfs)
                      else do
                        let tLast ← jsGet (kfs.getLastD .null) "t"
                        let tFirst ← jsGet (kfs.headD .null) "t"
                        let cycleDur := jsSub tLast tFirst
                        if qle0Opt cycleDur then pure (JVal.obj lfs)
                        else do
                          let opv := lookupField lfs "op"
                          let ipv := lookupField lfs "ip"
                          let opEff := if truthy opv then opv else some (jq 900)
                          let ipEff := if truthy ipv then ipv else some (jq 0)
                          let dur := jsSub opEff ipEff
                          let cycles := (jsCeil (jsDivQ dur cycleDur)).map (fun z => z + 1)
                          let n := cyclesIters cycles
                          let expanded ← buildExpanded n cycleDur kfs
                          let newTm := JVal.obj (deleteField (setField tfs "k" (.arr expanded)) "x")
                          pure (.obj (setField lfs "tm" newTm))
                  | _ => pure (JVal.obj lfs)
          | none => pure (JVal.obj lfs)
      | _ => pure (JVal.obj lfs)
  | other => pure other

/-- The inner `walk` applied to an actual array of layers. -/
def walkList (ls : List JVal) : Except Unit (List JVal) :=
  ls.mapM processLayer

/-- `walk(a.layers)` for one asset entry: reading `.layers` throws on a
null asset; `walk` is a no-op unless the field holds an array. -/
def walkAsset (a : JVal) : Except Unit JVal :=
  match a with
  | .null => .error ()
  | .obj afs =>
      match lookupField afs "layers" with
      | some (.arr ls) => do
          let ls2 ← walkList ls
          pure (.obj (setField afs "layers" (.arr ls2)))
      | _ => pure a
  | other => pure other

/-- The `expandTmCycles` transform of
src/blocks/lottie-animation-v8/lottie-animation-v8.js: walk the top-level
layers, then the layers of each asset.  Reading `.layers` of a null
document throws; on a non-object document both reads give `undefined` and
the walk is a no-op. -/
def expandTmCycles (data : JVal) : Except Unit JVal :=
  match data with
  | .null => .error ()
  | .obj dfs => do
      let dfs1 ← match lookupField dfs "layers" with
        | some (.arr ls) => do
            let ls2 ← walkList ls
            pure (setField dfs "layers" (.arr ls2))
        | _ => pure dfs
      match lookupField dfs1 "assets" with
      | some (.arr as) => do
          let as2 ← as.mapM walkAsset
          pure (JVal.obj (setField dfs1 "assets" (.arr as2)))
      | _ => pure (JVal.obj dfs1)
  | other => pure other

/-- The body of `layers.forEach` in the `expandTmCycles` copy of the
unnamed block file (src/unnamed/part_000); the source text of that
function is identical to the v8 one, and this embedding mirrors it
line for line. -/
def processLayerU (layer : JVal) : Except Unit JVal :=
  match layer with
  | .null => .error ()
  | .obj lfs =>
      match lookupField lfs "tm" with
      | some (.obj tfs) =>
          match lookupField tfs "x" with
          | some xv =>
              if !truthy (some xv) then pure (JVal.obj lfs)
              else do
                let hasMarker ← match xv with
                  | .str s => pure (strIncludes s "loopOut")
                  | .arr xs => pure (xs.any (fun v => match v with
                      | .str s => s == "loopOut"
                      | _ => false))
                  | _ => .error ()
                if !hasMarker then pure (JVal.obj lfs)
                else
                  match lookupField tfs "k" with
                  | some (.arr kfs) =>
                      if kfs.length < 2 then pure (JVal.obj lfs)
                      else do
                        let tLast ← jsGet (kfs.getLastD .null) "t"
                        let tFirst ← jsGet (kfs.headD .null) "t"
                        let cycleDur := jsSub tLast tFirst
                        if qle0Opt cycleDur then pure (JVal.obj lfs)
                        else do
                          let opv := lookupField lfs "op"
                          let ipv := lookupField lfs "ip"
                          let opEff := if truthy opv then opv else some (jq 900)
                          let ipEff := if truthy ipv then ipv else some (jq 0)
                          let dur := jsSub opEff ipEff
                          let cycles := (jsCeil (jsDivQ dur cycleDur)).map (fun z => z + 1)
                          let n := cyclesIters cycles
                          let expanded ← buildExpanded n cycleDur kfs
                          let newTm := JVal.obj (deleteField (setField tfs "k" (.arr expanded)) "x")
                          pure (.obj (setField lfs "tm" newTm))
                  | _ => pure (JVal.obj lfs)
          | none => pure (JVal.obj lfs)
      | _ => pure (JVal.obj lfs)
  | other => pure other

/-- The inner `walk` of the unnamed block file. -/
def walkListU (ls : List JVal) : Except Unit (List JVal) :=
  ls.mapM processLayerU

/-- `walk(a.layers)` of the unnamed block file. -/
def walkAssetU (a : JVal) : Except Unit JVal :=
  match a with
  | .null => .error ()
  | .obj afs =>
      match lookupField afs "layers" with
      | some (.arr ls) => do
          let ls2 ← walkListU ls
          pure (.obj (setField afs "layers" (.arr ls2)))
      | _ => pure a
  | other => pure other

/-- The `expandTmCycles` transform of the unnamed block file
(src/unnamed/part_000). -/
def expandTmCyclesU (data : JVal) : Except Unit JVal :=
  match data with
  | .null => .error ()
  | .obj dfs => do
      let dfs1 ← match lookupField dfs "layers" with
        | some (.arr ls) => do
            let ls2 ← walkListU ls
            pure (setField dfs "layers" (.arr ls2))
        | _ => pure dfs
      match lookupField dfs1 "assets" with
      | some (.arr as) => do
          let as2 ← as.mapM walkAssetU
          pure (JVal.obj (setField dfs1 "assets" (.arr as2)))
      | _ => pure (JVal.obj dfs1)
  | other => pure other

/-- Is this value the string "loopOut"?  (`Array.prototype.includes` uses
SameValueZero, so only that exact string matches.) -/
def isLoopStr (v : JVal) : Bool :=
  match v with
  | .str s => s == "loopOut"
  | _ => false

/-- Pure read of `kf.t` for a keyframe that is not null (on null the code
throws instead; `guardHit` returns false there). -/
def tOf (kf : JVal) : Option JVal :=
  match kf with
  | .obj fs => lookupField fs "t"
  | _ => none

/-- The keyframe-list guards of `processLayer`: `tm.k` not an array of at
least two entries, or `cycleDur <= 0`.  False when reading the first or
last keyframe time would throw (null keyframe). -/
def kGuard (tfs : List (String × JVal)) : Bool :=
  match lookupField tfs "k" with
  | some (.arr kfs) =>
      if kfs.length < 2 then true
      else
        match kfs.getLastD .null, kfs.headD .null with
        | .null, _ => false
        | _, .null => false
        | lastKf, firstKf => qle0Opt (jsSub (tOf lastKf) (tOf firstKf))
  | _ => true

/-- A layer hits one of the guard conditions of `expandTmCycles` (and is
returned untouched): `tm` falsy or not an object carrying a truthy `x`,
`tm.x` without the loopOut marker, `tm.k` not an array of at least two
keyframes, or a non-positive cycle duration.  False on layers where the
code throws instead of returning (null layer, truthy non-string
non-array `tm.x`, null first or last keyframe). -/
def guardHit (layer : JVal) : Bool :=
  match layer with
  | .null => false
  | .obj lfs =>
      match lookupField lfs "tm" with
      | some (.obj tfs) =>
          match lookupField tfs "x" with
          | some xv =>
              if !truthy (some xv) then true
              else
                match xv with
                | .str s => if !strIncludes s "loopOut" then true else kGuard tfs
                | .arr xs => if !xs.any isLoopStr then true else kGuard tfs
                | _ => false
          | none => true
      | _ => true
  | _ => true

def isObjVal (v : JVal) : Bool :=
  match v with
  | .obj _ => true
  | _ => false

/-- A value the copy loop can process without throwing: reading `.t`,
deep-copying and assigning `copy.t` all succeed on objects and on arrays
(on an array the assignment is an ordinary expando property write, even
in strict mode).  A null keyframe throws on the `.t` read; a primitive
keyframe throws on the strict-mode `copy.t` assignment. -/
def copyable (v : JVal) : Bool :=
  match v with
  | .obj _ => true
  | .arr _ => true
  | _ => false

def nonNull (v : JVal) : Bool :=
  match v with
  | .null => false
  | _ => true

/-- The keyframe list is safe to expand: too short to pass the length
guard, or its first and last keyframes are non-null (their `.t` reads
succeed) and either the non-positive cycle-duration guard returns before
anything is copied or every keyframe is an object or an array (so no copy
assignment can throw).  A sufficient condition, not an exact boundary: a
NaN cycle duration also makes the copy loop run zero times. -/
def kOk (tfs : List (String × JVal)) : Bool :=
  match lookupField tfs "k" with
  | some (.arr kfs) =>
      decide (kfs.length < 2) ||
      (nonNull (kfs.getLastD .null) && nonNull (kfs.headD .null) &&
        (qle0Opt (jsSub (tOf (kfs.getLastD .null)) (tOf (kfs.headD .null))) ||
         kfs.all copyable))
  | _ => true

/-- A layer on which `processLayer` cannot throw. -/
def layerOk (l : JVal) : Bool :=
  match l with
  | .null => false
  | .obj lfs =>
      match lookupField lfs "tm" with
      | some (.obj tfs) =>
          match lookupField tfs "x" with
          | some xv =>
              if !truthy (some xv) then true
              else
                match xv with
                | .str s => if strIncludes s "loopOut" then kOk tfs else true
                | .arr xs => if xs.any isLoopStr then kOk tfs else true
                | _ => false
          | none => true
      | _ => true
  | _ => true

/-- An asset entry on which `walk(a.layers)` cannot throw. -/
def assetOk (a : JVal) : Bool :=
  match a with
  | .null => false
  | .obj afs =>
      match lookupField afs "layers" with
      | some (.arr ls) => ls.all layerOk
      | _ => true
  | _ => true

/-- A document on which `expandTmCycles` cannot throw. -/
def wellShaped (d : JVal) : Bool :=
  match d with
  | .null => false
  | .obj dfs =>
      (match lookupField dfs "layers" with
       | some (.arr ls) => ls.all layerOk
       | _ => true) &&
      (match lookupField dfs "assets" with
       | some (.arr as) => as.all assetOk
       | _ => true)
  | _ => true

/-- The top-level layer list of a document, when there is one. -/
def docLayers (d : JVal) : Option (List JVal) :=
  match d with
  | .obj dfs =>
      match lookupField dfs "layers" with
      | some (.arr ls) => some ls
      | _ => none
  | _ => none

/-- The asset list of a document, when there is one. -/
def docAssets (d : JVal) : Option (List JVal) :=
  match d with
  | .obj dfs =>
      match lookupField dfs "assets" with
      | some (.arr as) => some as
      | _ => none
  | _ => none

/-- The layer list of one asset entry, when there is one. -/
def assetLayerList (a : JVal) : Option (List JVal) :=
  match a with
  | .obj afs =>
      match lookupField afs "layers" with
      | some (.arr ls) => some ls
      | _ => none
  | _ => none

/-- A primitive JavaScript value in the heap embedding of
`stripRemainingExpressions` (which must track object identity, because
its visited set is keyed by identity and the object graph may be
cyclic). -/
inductive GPrim : Type where
  | nullP : GPrim
  | boolP : Bool → GPrim
  | numP : Option ℚ → GPrim
  | strP : String → GPrim
deriving Repr, DecidableEq

/-- A heap value: a primitive, or a reference to a heap object. -/
inductive GVal : Type where
  | prim : GPrim → GVal
  | ref : ℕ → GVal
deriving Repr, DecidableEq

/-- A heap object: an array of values or a plain object with ordered
fields. -/
inductive GNode : Type where
  | arrN : List GVal → GNode
  | objN : List (String × GVal) → GNode
deriving Repr, DecidableEq

/-- A heap: finitely many addressed objects (addresses play the role of
object identities). -/
def Heap : Type := List (ℕ × GNode)

/-- Object at address `a`. -/
def hfind (h : Heap) (a : ℕ) : Option GNode :=
  match h with
  | [] => none
  | (b, n) :: r => if b = a then some n else hfind r a

/-- Replace the object at address `a` (the address set never changes). -/
def hset (h : Heap) (a : ℕ) (n : GNode) : Heap :=
  match h with
  | [] => []
  | (b, m) :: r => if b = a then (b, n) :: r else (b, m) :: hset r a n

/-- Field lookup in a heap object. -/
def glookup (fs : List (String × GVal)) (k : String) : Option GVal :=
  match fs with
  | [] => none
  | (k1, v) :: r => if k1 = k then some v else glookup r k

/-- Removal of one object property (the delete operator). -/
def removeFirstField : List (String × GVal) → String → List (String × GVal)
  | [], _ => []
  | (k, v) :: r, key => if k = key then r else (k, v) :: removeFirstField r key

/-- The statement `if (hasX(obj) and typeof obj.x is string) delete obj.x`
on an object field list: remove the `x` binding exactly when it holds a
string. -/
def stripXFields (fs : List (String × GVal)) : List (String × GVal) :=
  match glookup fs "x" with
  | some (.prim (.strP _)) => removeFirstField fs "x"
  | _ => fs

/-- The effect of one visit (first visit or revisit) on a node: arrays are
untouched, objects lose a string-valued `x` field. -/
def cleanNode : GNode → GNode
  | .arrN xs => .arrN xs
  | .objN fs => .objN (stripXFields fs)

/-- The revisit branch of `stripRemainingExpressions`: for an already-seen
object, delete a string-valued `x` field and do not recurse. -/
def cleanAt (h : Heap) (a : ℕ) : Heap :=
  match hfind h a with
  | some n => hset h a (cleanNode n)
  | none => h

/-- Number of heap addresses not yet in the visited set: the termination
measure of the traversal. -/
def unvisited (h : Heap) (seen : List ℕ) : ℕ :=
  ((h.map Prod.fst).filter (fun a => !seen.contains a)).length

theorem hset_keys (h : Heap) (a : ℕ) (n : GNode) :
    (hset h a n).map Prod.fst = h.map Prod.fst := by
  induction h with
  | nil => rfl
  | cons p r ih =>
      obtain ⟨b, m⟩ := p
      by_cases hb : b = a
      · simp [hset, hb]
      · simp [hset, hb, ih]

theorem unvisited_hset (h : Heap) (a : ℕ) (n : GNode) (seen : List ℕ) :
    unvisited (hset h a n) seen = unvisited h seen := by
  simp [unvisited, hset_keys]

theorem unvisited_cleanAt (h : Heap) (a : ℕ) (seen : List ℕ) :
    unvisited (cleanAt h a) seen = unvisited h seen := by
  unfold cleanAt
  cases hfind h a with
  | none => rfl
  | some n => exact unvisited_hset h a (cleanNode n) seen

theorem hfind_mem_keys {h : Heap} {a : ℕ} {n : GNode} (hf : hfind h a = some n) :
    a ∈ h.map Prod.fst := by
  induction h with
  | nil => simp [hfind] at hf
  | cons p r ih =>
      obtain ⟨b, m⟩ := p
      by_cases hb : b = a
      · subst hb
        simp
      · simp only [hfind, if_neg hb] at hf
        simpa using Or.inr (ih hf)

theorem length_filter_mono {l : List ℕ} {p1 p2 : ℕ → Bool}
    (himp : ∀ b, p2 b = true → p1 b = true) :
    (l.filter p2).length ≤ (l.filter p1).length := by
  induction l with
  | nil => simp
  | cons c r ih =>
      by_cases h2 : p2 c = true
      · simp [List.filter, h2, himp c h2]
        omega
      · have h2f : p2 c = false := by
          revert h2
          cases p2 c <;> simp
        cases h1 : p1 c <;> simp [List.filter, h2f, h1] <;> omega

theorem length_filter_strict {l : List ℕ} {p1 p2 : ℕ → Bool} {a : ℕ}
    (himp : ∀ b, p2 b = true → p1 b = true) (ha : a ∈ l)
    (h1 : p1 a = true) (h2 : p2 a = false) :
    (l.filter p2).length < (l.filter p1).length := by
  induction l with
  | nil => simp at ha
  | cons c r ih =>
      rcases List.mem_cons.mp ha with hc | hc
      · subst hc
        simp only [List.filter, h1, h2]
        have := length_filter_mono (l := r) himp
        simp
        omega
      · have hle : (r.filter p2).length < (r.filter p1).length := ih hc
        cases hp2 : p2 c
        · cases hp1 : p1 c <;> simp [List.filter, hp1, hp2] <;> omega
        · have hp1 : p1 c = true := himp c hp2
          simp [List.filter, hp1, hp2]
          omega

theorem unvisited_lt {h : Heap} {a : ℕ} {n : GNode} {seen : List ℕ}
    (hf : hfind h a = some n) (hs : seen.contains a = false) :
    unvisited h (a :: seen) < unvisited h seen := by
  unfold unvisited
  apply length_filter_strict (a := a)
  · intro b hb
    simp only [List.contains_cons, Bool.not_eq_true', Bool.or_eq_false_iff] at hb ⊢
    exact hb.2
  · exact hfind_mem_keys hf
  · simpa using hs
  · simp [hs]

/-- The recursive walk of `stripRemainingExpressions`, presented as a
worklist (the pending `forEach` continuations, depth first): primitives
are skipped; an already-seen reference has its string `x` deleted without
recursion; a fresh reference is marked seen, has its string `x` deleted
when it is a plain object, and its (post-deletion) child values are
traversed.  Well-founded on (unvisited addresses, worklist length), which
is exactly why the JavaScript original terminates on cyclic graphs. -/
def strip (h : Heap) (seen : List ℕ) (work : List GVal) : Heap :=
  match work with
  | [] => h
  | .prim _ :: rest => strip h seen rest
  | .ref a :: rest =>
      if hs : seen.contains a then
        strip (cleanAt h a) seen rest
      else
        match hf : hfind h a with
        | none => strip h seen rest
        | some (.arrN items) => strip h (a :: seen) (items ++ rest)
        | some (.objN fs) =>
            strip (hset h a (.objN (stripXFields fs))) (a :: seen)
              ((stripXFields fs).map Prod.snd ++ rest)
termination_by (unvisited h seen, work.length)
decreasing_by
  · apply Prod.Lex.right
    simp
  · rw [unvisited_cleanAt]
    apply Prod.Lex.right
    simp
  · apply Prod.Lex.right
    simp
  · apply Prod.Lex.left
    exact unvisited_lt hf (by simpa using hs)
  · apply Prod.Lex.left
    rw [unvisited_hset]
    exact unvisited_lt hf (by simpa using hs)

/-- `stripRemainingExpressions(root)` with a fresh visited set, acting on
the heap. -/
def stripRemainingExpressions (h : Heap) (root : GVal) : Heap :=
  strip h [] [root]

/-- References among a list of heap values. -/
def refsOf (vs : List GVal) : List ℕ :=
  vs.filterMap (fun v => match v with | .ref b => some b | _ => none)

/-- Addresses directly referenced from the object at `a`. -/
def refChildren (h : Heap) (a : ℕ) : List ℕ :=
  match hfind h a with
  | some (.arrN xs) => refsOf xs
  | some (.objN fs) => refsOf (fs.map Prod.snd)
  | none => []

/-- No string-valued `x` field on the node (arrays and missing addresses
are trivially clean). -/
def nodeClean : Option GNode → Bool
  | some (.objN fs) =>
      match glookup fs "x" with
      | some (.prim (.strP _)) => false
      | _ => true
  | _ => true

/-- `ReachAvoid h S a b`: address `b` is reachable from address `a` along
references whose every node (including `a`, excluding nothing) lies
outside the visited set `S`. -/
inductive ReachAvoid (h : Heap) (S : List ℕ) : ℕ → ℕ → Prop where
  | refl : ∀ a, S.contains a = false → ReachAvoid h S a a
  | step : ∀ a b c, S.contains a = false → b ∈ refChildren h a →
      ReachAvoid h S b c → ReachAvoid h S a c

/-- Plain reachability between addresses. -/
def Reaches (h : Heap) (a b : ℕ) : Prop := ReachAvoid h [] a b

/-- The value of the defaulted out-point `(layer.op || 900)`. -/
def effOp (lfs : List (String × JVal)) : Option JVal :=
  if truthy (lookupField lfs "op") then lookupField lfs "op" else some (jq 900)

/-- The value of the defaulted in-point `(layer.ip || 0)`. -/
def effIp (lfs : List (String × JVal)) : Option JVal :=
  if truthy (lookupField lfs "ip") then lookupField lfs "ip" else some (jq 0)

/-- The number of keyframe-list copies the expansion loop emits for a
layer with fields `lfs` and cycle duration `cd`. -/
def emittedCycles (lfs : List (String × JVal)) (cd : ℚ) : ℕ :=
  cyclesIters ((jsCeil (jsDivQ (jsSub (effOp lfs) (effIp lfs)) (some cd))).map
    (fun z => z + 1))

/-- The numeric time of a keyframe (0 when absent or non-numeric; the
statements using it carry a hypothesis that the time is numeric). -/
def kfT (kf : JVal) : ℚ :=
  match tOf kf with
  | some (.num (some q)) => q
  | _ => 0

/-- A keyframe copy with its `t` field set to the number `q` (the shape
`copy.t = ...` takes on an object copy). -/
def setObjT (kf : JVal) (q : ℚ) : JVal :=
  match kf with
  | .obj fs => .obj (setField fs "t" (jq q))
  | other => other

/-- A document with a single top-level layer. -/
def mkTopDoc (l : JVal) : JVal := .obj [("layers", .arr [l])]

/-- A document whose single layer is reachable only through an asset. -/
def mkAssetDoc (l : JVal) : JVal :=
  .obj [("assets", .arr [.obj [("layers", .arr [l])]])]

/-- The end-to-end scenario document of the specification:
one layer, `ip 0`, `op 100`, `tm.x` a cyclic loop-out expression, two
keyframes at `t = 0` and `t = 25`. -/
def c2doc : JVal :=
  .obj [("layers", .arr [
    .obj [("ip", jq 0), ("op", jq 100),
          ("tm", .obj [("x", .str "loopOut(\x27cycle\x27)"),
                       ("k", .arr [.obj [("t", jq 0), ("v", jq 0)],
                                   .obj [("t", jq 25), ("v", jq 1)]])])]])]

/-- The expected expansion of `c2doc`: ten keyframes, the two originals
shifted by 0, 25, 50, 75 and 100, and no `tm.x`. -/
def c2out : JVal :=
  .obj [("layers", .arr [
    .obj [("ip", jq 0), ("op", jq 100),
          ("tm", .obj [("k", .arr [
            .obj [("t", jq 0), ("v", jq 0)], .obj [("t", jq 25), ("v", jq 1)],
            .obj [("t", jq 25), ("v", jq 0)], .obj [("t", jq 50), ("v", jq 1)],
            .obj [("t", jq 50), ("v", jq 0)], .obj [("t", jq 75), ("v", jq 1)],
            .obj [("t", jq 75), ("v", jq 0)], .obj [("t", jq 100), ("v", jq 1)],
            .obj [("t", jq 100), ("v", jq 0)], .obj [("t", jq 125), ("v", jq 1)]])])]])]

/-- The `tm.k` value of the single top-level layer of a document. -/
def firstLayerTmK (d : JVal) : Option JVal :=
  match docLayers d with
  | some (l :: _) =>
      match l with
      | .obj lfs =>
          match lookupField lfs "tm" with
          | some (.obj tfs) => lookupField tfs "k"
          | _ => none
      | _ => none
  | _ => none

/-- The `tm.x` value of the single top-level layer of a document. -/
def firstLayerTmX (d : JVal) : Option JVal :=
  match docLayers d with
  | some (l :: _) =>
      match l with
      | .obj lfs =>
          match lookupField lfs "tm" with
          | some (.obj tfs) => lookupField tfs "x"
          | _ => none
      | _ => none
  | _ => none

/-- A layer whose out-point lies two cycle durations before its in-point:
eligible for expansion (marker present, two ascending keyframes, positive
cycle duration), yet the cycle count `ceil(-50 / 25) + 1 = -1` makes the
loop body run zero times. -/
def negDurLayer : JVal :=
  .obj [("ip", jq 100), ("op", jq 50),
        ("tm", .obj [("x", .str "loopOut(\x27cycle\x27)"),
                     ("k", .arr [.obj [("t", jq 0)], .obj [("t", jq 25)]])])]

/-- What `expandTmCycles` makes of `negDurLayer`: the keyframe list is
replaced by the empty list and the expression is removed. -/
def negDurLayerOut : JVal :=
  .obj [("ip", jq 100), ("op", jq 50), ("tm", .obj [("k", .arr [])])]


/-- The single layer of the end-to-end scenario document. -/
def c2layer : JVal :=
  .obj [("ip", jq 0), ("op", jq 100),
        ("tm", .obj [("x", .str "loopOut(\x27cycle\x27)"),
                     ("k", .arr [.obj [("t", jq 0), ("v", jq 0)],
                                 .obj [("t", jq 25), ("v", jq 1)]])])]

/-- The expansion of `c2layer`. -/
def c2layerOut : JVal :=
  .obj [("ip", jq 0), ("op", jq 100),
        ("tm", .obj [("k", .arr [
          .obj [("t", jq 0), ("v", jq 0)], .obj [("t", jq 25), ("v", jq 1)],
          .obj [("t", jq 25), ("v", jq 0)], .obj [("t", jq 50), ("v", jq 1)],
          .obj [("t", jq 50), ("v", jq 0)], .obj [("t", jq 75), ("v", jq 1)],
          .obj [("t", jq 75), ("v", jq 0)], .obj [("t", jq 100), ("v", jq 1)],
          .obj [("t", jq 100), ("v", jq 0)], .obj [("t", jq 125), ("v", jq 1)]])])]

/-- A layer hitting the degenerate-cycle guard: two keyframes at the same
time, so the cycle duration is zero. -/
def guardLayer : JVal :=
  .obj [("tm", .obj [("x", .str "loopOut"),
                     ("k", .arr [.obj [("t", jq 5)], .obj [("t", jq 5)]])])]

/-- A two-object heap with a reference cycle: object 0 points to itself
and to object 1, which points back to 0; both carry string expressions. -/
def heapCyc : Heap :=
  [(0, .objN [("x", .prim (.strP "loopOut(\x27cycle\x27)")),
              ("self", .ref 0), ("kid", .ref 1)]),
   (1, .objN [("x", .prim (.strP "e")), ("back", .ref 0)])]

/-- A one-object heap whose `x` field holds a number, not a string. -/
def heapNumX : Heap :=
  [(0, .objN [("x", .prim (.numP (some 5))), ("y", .prim (.strP "keep"))])]

/-- A well-shaped document probing the edges of the no-throw class: its
first layer is eligible and carries an array keyframe between two object
keyframes (the copy loop writes an expando `t` on the array copy without
throwing); its second layer holds a primitive keyframe shielded by the
degenerate-cycle guard (equal first and last times), which returns before
anything is copied. -/
def c4doc : JVal :=
  .obj [("layers", .arr [
    .obj [("ip", jq 0), ("op", jq 100),
          ("tm", .obj [("x", .str "loopOut(\x27cycle\x27)"),
                       ("k", .arr [.obj [("t", jq 0)],
                                   .arr [jq 1, jq 2],
                                   .obj [("t", jq 25)]])])],
    .obj [("tm", .obj [("x", .str "loopOut"),
                       ("k", .arr [.obj [("t", jq 5)],
                                   .num (some 7),
                                   .obj [("t", jq 5)]])])]])]

/-- A heap object as JavaScript can actually hold it: field keys are
distinct.  (Both the document transform and the stripping pass act on
JavaScript objects, whose property keys are unique by construction.) -/
def nodeWF : GNode → Bool
  | .arrN _ => true
  | .objN fs => decide (fs.map Prod.fst).Nodup

/-- Every object in the heap has distinct field keys. -/
def heapWF (h : Heap) : Bool := h.all (fun p => nodeWF p.2)

/-- A keyframe the expansion copies without observable change: an object
with a numeric `t` and no NaN anywhere (so the `JSON.parse` round trip is
the identity on it and the shifted time is a plain number). -/
def kfNum (kf : JVal) : Bool :=
  match kf with
  | .obj fs =>
      (match lookupField fs "t" with
       | some (.num (some _)) => true
       | _ => false) && goodJson (.obj fs)
  | _ => false

/-- Cycle copy `c` of a keyframe list: every keyframe with its time
shifted by `c * cd`. -/
def shiftedBlock (cd : ℚ) (kfs : List JVal) (c : ℕ) : List JVal :=
  kfs.map (fun kf => setObjT kf (kfT kf + (c : ℚ) * cd))

/-- The fully expanded keyframe list: `n` concatenated shifted copies of
the original list. -/
def expandedKfs (n : ℕ) (cd : ℚ) (kfs : List JVal) : List JVal :=
  ((List.range n).map (shiftedBlock cd kfs)).flatten

def negDurFields : List (String × JVal) :=
  [("ip", jq 100), ("op", jq 50),
   ("tm", .obj [("x", .str "loopOut(\x27cycle\x27)"),
                ("k", .arr [.obj [("t", jq 0)], .obj [("t", jq 25)]])])]

/-- The keyframes of the end-to-end scenario layer. -/
def c1kfs : List JVal :=
  [.obj [("t", jq 0), ("v", jq 0)], .obj [("t", jq 25), ("v", jq 1)]]

/-- The `tm` fields of the end-to-end scenario layer. -/
def c1tmFields : List (String × JVal) :=
  [("x", .str "loopOut(\x27cycle\x27)"), ("k", .arr c1kfs)]

/-- The fields of the end-to-end scenario layer. -/
def c1fields : List (String × JVal) :=
  [("ip", jq 0), ("op", jq 100), ("tm", .obj c1tmFields)]

/-- Keyframes of a layer exercising the `op`/`ip` defaults. -/
def c3kfs : List JVal := [.obj [("t", jq 0)], .obj [("t", jq 25)]]

/-- `tm` fields of the defaults-exercising layer. -/
def c3tmFields : List (String × JVal) :=
  [("x", .str "loopOut"), ("k", .arr c3kfs)]

/-- Fields of a layer with no `op` and no `ip`: the defaults 900 and 0
apply, so its duration is 900 and hence 37 cycle copies are emitted. -/
def c3fields : List (String × JVal) := [("tm", .obj c3tmFields)]

/-! ### Supporting lemmas -/

theorem qadd_eq (a b : ℚ) : qadd a b = a + b := by
  have ha : ((a.den : ℚ)) ≠ 0 := by positivity
  have hb : ((b.den : ℚ)) ≠ 0 := by positivity
  have hA := (div_eq_iff ha).mp (Rat.num_div_den a)
  have hB := (div_eq_iff hb).mp (Rat.num_div_den b)
  unfold qadd
  rw [Rat.mkRat_eq_div]
  push_cast
  rw [div_eq_iff (by positivity), hA, hB]
  ring

theorem qsub_eq (a b : ℚ) : qsub a b = a - b := by
  have ha : ((a.den : ℚ)) ≠ 0 := by positivity
  have hb : ((b.den : ℚ)) ≠ 0 := by positivity
  have hA := (div_eq_iff ha).mp (Rat.num_div_den a)
  have hB := (div_eq_iff hb).mp (Rat.num_div_den b)
  unfold qsub
  rw [Rat.mkRat_eq_div]
  push_cast
  rw [div_eq_iff (by positivity), hA, hB]
  ring

theorem qmul_eq (a b : ℚ) : qmul a b = a * b := by
  have ha : ((a.den : ℚ)) ≠ 0 := by positivity
  have hb : ((b.den : ℚ)) ≠ 0 := by positivity
  have hA := (div_eq_iff ha).mp (Rat.num_div_den a)
  have hB := (div_eq_iff hb).mp (Rat.num_div_den b)
  unfold qmul
  rw [Rat.mkRat_eq_div]
  push_cast
  rw [div_eq_iff (by positivity), hA, hB]
  ring

theorem qdiv_eq (a b : ℚ) (hbne : b ≠ 0) : qdiv a b = a / b := by
  have ha : ((a.den : ℚ)) ≠ 0 := by positivity
  have hb : ((b.den : ℚ)) ≠ 0 := by positivity
  have hA := (div_eq_iff ha).mp (Rat.num_div_den a)
  have hB := (div_eq_iff hb).mp (Rat.num_div_den b)
  have hn : (b.num : ℚ) ≠ 0 := by
    simpa [Rat.num_eq_zero] using hbne
  unfold qdiv
  rcases le_or_lt 0 b.num with h | h
  · have hnn : ((b.num.toNat : ℚ)) = (b.num : ℚ) := by
      rw [← Int.cast_natCast]
      norm_cast
      omega
    rw [if_pos h, Rat.mkRat_eq_div]
    push_cast
    rw [hnn, div_eq_div_iff (mul_ne_zero ha hn) hbne, hA, hB]
    ring
  · have hnn : (((-b.num).toNat : ℚ)) = -(b.num : ℚ) := by
      rw [← Int.cast_natCast]
      norm_cast
      omega
    rw [if_neg (not_le.mpr h), Rat.mkRat_eq_div]
    push_cast
    rw [hnn, div_eq_div_iff (by simpa using mul_ne_zero ha hn) hbne, hA, hB]
    ring

theorem qle0_iff (q : ℚ) : qle0 q = true ↔ q ≤ 0 := by
  unfold qle0
  simp [Rat.num_nonpos]

theorem qofNat_eq (n : ℕ) : qofNat n = (n : ℚ) := by
  unfold qofNat
  rw [Rat.mkRat_eq_div]
  simp

theorem ratCeil_eq (q : ℚ) : ratCeil q = ⌈q⌉ := by
  unfold ratCeil
  have hden : (0 : ℤ) < (q.den : ℤ) := by exact_mod_cast q.pos
  by_cases h : q.den = 1
  · rw [if_pos h]
    have : q = (q.num : ℚ) := by
      conv_lhs => rw [← Rat.num_div_den q]
      rw [h]
      simp
    rw [this]
    simp
  · rw [if_neg h]
    have hfl : q.num.fdiv q.den = ⌊q⌋ := by
      rw [Int.fdiv_eq_ediv _ (by positivity), Rat.floor_def]
    rw [hfl]
    have hne : ((⌊q⌋ : ℚ)) ≠ q := by
      intro he
      have : q.den = 1 := by
        rw [← he]
        exact Rat.den_intCast ⌊q⌋
      exact h this
    have hlt : ((⌊q⌋ : ℚ)) < q := lt_of_le_of_ne (Int.floor_le q) hne
    have h1 : ⌊q⌋ + 1 ≤ ⌈q⌉ := Int.lt_ceil.mpr hlt
    have h2 : ⌈q⌉ ≤ ⌊q⌋ + 1 := Int.ceil_le_floor_add_one q
    omega

theorem lookup_setField_eq (fs : List (String × JVal)) (k : String) (v : JVal) :
    lookupField (setField fs k v) k = some v := by
  induction fs with
  | nil => simp [setField, lookupField]
  | cons f r ih =>
      obtain ⟨k1, v1⟩ := f
      by_cases hk : k1 = k
      · simp [setField, hk, lookupField]
      · simp [setField, hk, lookupField, ih]

theorem lookup_setField_ne (fs : List (String × JVal)) (k k2 : String) (v : JVal)
    (hne : k2 ≠ k) : lookupField (setField fs k v) k2 = lookupField fs k2 := by
  induction fs with
  | nil =>
      simp only [setField, lookupField]
      rw [if_neg (fun h => hne h.symm)]
  | cons f r ih =>
      obtain ⟨k1, v1⟩ := f
      by_cases hk : k1 = k
      · subst hk
        simp only [setField, if_pos rfl, lookupField]
        rw [if_neg (fun h => hne h.symm), if_neg (fun h => hne h.symm)]
      · simp only [setField, if_neg hk, lookupField]
        by_cases hk2 : k1 = k2
        · simp [hk2]
        · simp [hk2, ih]

theorem lookup_deleteField (fs : List (String × JVal)) (k : String) :
    lookupField (deleteField fs k) k = none := by
  induction fs with
  | nil => simp [deleteField, lookupField]
  | cons f r ih =>
      obtain ⟨k1, v1⟩ := f
      by_cases hk : k1 = k
      · simpa [deleteField, hk] using ih
      · simpa [deleteField, lookupField, hk] using ih

theorem setField_setField (fs : List (String × JVal)) (k : String) (v w : JVal) :
    setField (setField fs k v) k w = setField fs k w := by
  induction fs with
  | nil => simp [setField]
  | cons f r ih =>
      obtain ⟨k1, v1⟩ := f
      by_cases hk : k1 = k
      · simp [setField, hk]
      · simp [setField, hk, ih]

theorem setField_already (fs : List (String × JVal)) (k : String) (v : JVal)
    (h : lookupField fs k = some v) : setField fs k v = fs := by
  induction fs with
  | nil => simp [lookupField] at h
  | cons f r ih =>
      obtain ⟨k1, v1⟩ := f
      by_cases hk : k1 = k
      · subst hk
        simp only [lookupField, if_pos rfl] at h
        have hv : v1 = v := by
          simpa using h
        simp [setField, hv]
      · simp only [lookupField, if_neg hk] at h
        simp [setField, hk, ih h]

theorem mapM_ok_map {α β : Type} (f : α → Except Unit β) (g : α → β) :
    ∀ (l : List α), (∀ x ∈ l, f x = .ok (g x)) → l.mapM f = .ok (l.map g) := by
  intro l
  induction l with
  | nil => intro _; rfl
  | cons a r ih =>
      intro h
      rw [List.mapM_cons, h a (List.mem_cons_self a r), ih (fun x hx => h x (List.mem_cons_of_mem a hx))]
      rfl

theorem mapM_ok_length {α β : Type} (f : α → Except Unit β) :
    ∀ (l : List α) (l2 : List β), l.mapM f = .ok l2 → l2.length = l.length := by
  intro l
  induction l with
  | nil =>
      intro l2 h
      simp only [List.mapM_nil] at h
      cases h
      rfl
  | cons a r ih =>
      intro l2 h
      rw [List.mapM_cons] at h
      cases hfa : f a with
      | error e => rw [hfa] at h; cases h
      | ok b =>
          rw [hfa] at h
          cases hr : r.mapM f with
          | error e => rw [hr] at h; cases h
          | ok rb =>
              rw [hr] at h
              cases h
              simpa using ih rb hr

theorem mapM_ok_index {α β : Type} (f : α → Except Unit β) :
    ∀ (l : List α) (l2 : List β), l.mapM f = .ok l2 →
      ∀ (i : ℕ) (x : α), l[i]? = some x → ∃ y, f x = .ok y ∧ l2[i]? = some y := by
  intro l
  induction l with
  | nil => intro l2 _ i x hx; simp at hx
  | cons a r ih =>
      intro l2 h i x hx
      rw [List.mapM_cons] at h
      cases hfa : f a with
      | error e => rw [hfa] at h; cases h
      | ok b =>
          rw [hfa] at h
          cases hr : r.mapM f with
          | error e => rw [hr] at h; cases h
          | ok rb =>
              rw [hr] at h
              cases h
              cases i with
              | zero =>
                  simp at hx
                  subst hx
                  exact ⟨b, hfa, by simp⟩
              | succ j =>
                  simp only [List.getElem?_cons_succ] at hx ⊢
                  exact ih rb hr j x hx

theorem mapM_idem {α : Type} (f : α → Except Unit α)
    (hf : ∀ x y, f x = .ok y → f y = .ok y) :
    ∀ (l l2 : List α), l.mapM f = .ok l2 → l2.mapM f = .ok l2 := by
  intro l
  induction l with
  | nil =>
      intro l2 h
      simp only [List.mapM_nil] at h
      cases h
      rfl
  | cons a r ih =>
      intro l2 h
      rw [List.mapM_cons] at h
      cases hfa : f a with
      | error e => rw [hfa] at h; cases h
      | ok b =>
          rw [hfa] at h
          cases hr : r.mapM f with
          | error e => rw [hr] at h; cases h
          | ok rb =>
              rw [hr] at h
              cases h
              rw [List.mapM_cons, hf a b hfa, ih rb hr]
              rfl

mutual
theorem jsonRound_id : ∀ v : JVal, goodJson v = true → jsonRound v = v
  | .null, _ => rfl
  | .bool _, _ => rfl
  | .num none, h => by simp [goodJson] at h
  | .num (some _), _ => rfl
  | .str _, _ => rfl
  | .arr xs, h => by
      rw [jsonRound, jsonRoundList_id xs (by simpa [goodJson] using h)]
  | .obj fs, h => by
      rw [jsonRound, jsonRoundFields_id fs (by simpa [goodJson] using h)]

theorem jsonRoundList_id : ∀ l : List JVal, goodJsonList l = true → jsonRoundList l = l
  | [], _ => rfl
  | v :: r, h => by
      have h2 : goodJson v = true ∧ goodJsonList r = true := by
        simpa [goodJsonList, Bool.and_eq_true] using h
      rw [jsonRoundList, jsonRound_id v h2.1, jsonRoundList_id r h2.2]

theorem jsonRoundFields_id :
    ∀ fs : List (String × JVal), goodJsonFields fs = true → jsonRoundFields fs = fs
  | [], _ => rfl
  | (k, v) :: r, h => by
      have h2 : goodJson v = true ∧ goodJsonFields r = true := by
        simpa [goodJsonFields, Bool.and_eq_true] using h
      rw [jsonRoundFields, jsonRound_id v h2.1, jsonRoundFields_id r h2.2]
end

theorem jsGet_eq_tOf (v : JVal) (h : v ≠ .null) : jsGet v "t" = .ok (tOf v) := by
  cases v with
  | null => exact absurd rfl h
  | obj fs => rfl
  | bool b => rfl
  | num q => rfl
  | str s => rfl
  | arr xs => rfl

theorem processLayer_guard (layer : JVal) (hg : guardHit layer = true) :
    processLayer layer = .ok layer := by
  cases layer with
  | null => simp [guardHit] at hg
  | bool b => rfl
  | num v => rfl
  | str s => rfl
  | arr xs => rfl
  | obj lfs =>
      rw [guardHit] at hg
      rw [processLayer]
      cases htm : lookupField lfs "tm" with
      | none => simp only [htm] at hg ⊢; rfl
      | some tmv =>
          simp only [htm] at hg ⊢
          cases tmv with
          | obj tfs =>
              cases hx : lookupField tfs "x" with
              | none => simp only [hx] at hg ⊢; rfl
              | some xv =>
                  simp only [hx] at hg ⊢
                  by_cases htr : truthy (some xv) = true
                  · simp only [htr, Bool.not_true, Bool.false_eq_true, if_false] at hg ⊢
                    cases xv with
                    | str s =>
                        by_cases hm : strIncludes s "loopOut" = true
                        · simp only [hm, Bool.not_true, Bool.false_eq_true, if_false] at hg ⊢
                          simp only [bind, Except.bind, pure, Bool.not_true,
                            Bool.false_eq_true, if_false]
                          rw [kGuard] at hg
                          cases hk : lookupField tfs "k" with
                          | none => simp only [hk] at hg ⊢; rfl
                          | some kv =>
                              simp only [hk] at hg ⊢
                              cases kv with
                              | arr kfs =>
                                  by_cases hlen : kfs.length < 2
                                  · simp only [hlen, if_true, if_pos] at hg ⊢
                                    rfl
                                  · simp only [hlen, if_false, if_neg] at hg ⊢
                                    have hlne : kfs.getLastD .null ≠ .null := by
                                      intro he
                                      rw [he] at hg
                                      simp at hg
                                    have hfne : kfs.headD .null ≠ .null := by
                                      intro he
                                      rw [he] at hg
                                      cases hl2 : kfs.getLastD .null <;> rw [hl2] at hg <;>
                                        simp at hg
                                    rw [jsGet_eq_tOf _ hlne, jsGet_eq_tOf _ hfne]
                                    simp only [Except.bind, pure]
                                    have hq : qle0Opt (jsSub (tOf (kfs.getLastD .null))
                                        (tOf (kfs.headD .null))) = true := by
                                      revert hg
                                      cases hl2 : kfs.getLastD .null <;>
                                        cases hf2 : kfs.headD .null <;> intro hg <;>
                                        first
                                          | exact absurd hl2 hlne
                                          | exact absurd hf2 hfne
                                          | simpa using hg
                                    rw [if_pos hq]
                                    rfl
                              | null => simp only [hk] at hg ⊢; rfl
                              | bool c => simp only [hk] at hg ⊢; rfl
                              | num c => simp only [hk] at hg ⊢; rfl
                              | str c => simp only [hk] at hg ⊢; rfl
                              | obj c => simp only [hk] at hg ⊢; rfl
                        · have hm2 : strIncludes s "loopOut" = false := by
                            revert hm
                            cases strIncludes s "loopOut" <;> simp
                          simp only [hm2, Bool.not_false, if_true, if_pos] at hg ⊢
                          rfl
                    | arr xs =>
                        by_cases hm : xs.any isLoopStr = true
                        · simp only [hm, Bool.not_true, Bool.false_eq_true, if_false] at hg ⊢
                          simp only [bind, Except.bind, pure, Bool.not_true,
                            Bool.false_eq_true, if_false]
                          have hmm : (xs.any fun v => match v with
                              | .str s => s == "loopOut"
                              | _ => false) = true := by
                            rw [← hm]
                            rfl
                          simp only [hmm, Bool.not_true, Bool.false_eq_true, if_false]
                          rw [kGuard] at hg
                          cases hk : lookupField tfs "k" with
                          | none => simp only [hk] at hg ⊢; rfl
                          | some kv =>
                              simp only [hk] at hg ⊢
                              cases kv with
                              | arr kfs =>
                                  by_cases hlen : kfs.length < 2
                                  · simp only [hlen, if_true, if_pos] at hg ⊢
                                    rfl
                                  · simp only [hlen, if_false, if_neg] at hg ⊢
                                    have hlne : kfs.getLastD .null ≠ .null := by
                                      intro he
                                      rw [he] at hg
                                      simp at hg
                                    have hfne : kfs.headD .null ≠ .null := by
                                      intro he
                                      rw [he] at hg
                                      cases hl2 : kfs.getLastD .null <;> rw [hl2] at hg <;>
                                        simp at hg
                                    rw [jsGet_eq_tOf _ hlne, jsGet_eq_tOf _ hfne]
                                    simp only [Except.bind, pure]
                                    have hq : qle0Opt (jsSub (tOf (kfs.getLastD .null))
                                        (tOf (kfs.headD .null))) = true := by
                                      revert hg
                                      cases hl2 : kfs.getLastD .null <;>
                                        cases hf2 : kfs.headD .null <;> intro hg <;>
                                        first
                                          | exact absurd hl2 hlne
                                          | exact absurd hf2 hfne
                                          | simpa using hg
                                    rw [if_pos hq]
                                    rfl
                              | null => simp only [hk] at hg ⊢; rfl
                              | bool c => simp only [hk] at hg ⊢; rfl
                              | num c => simp only [hk] at hg ⊢; rfl
                              | str c => simp only [hk] at hg ⊢; rfl
                              | obj c => simp only [hk] at hg ⊢; rfl
                        · have hm2 : xs.any isLoopStr = false := by
                            revert hm
                            cases xs.any isLoopStr <;> simp
                          simp only [hm2, Bool.not_false, if_true, if_pos] at hg ⊢
                          have hmm : (xs.any fun v => match v with
                              | .str s => s == "loopOut"
                              | _ => false) = false := hm2
                          simp only [bind, Except.bind, pure, hmm, Bool.not_false, if_true]
                          rfl
                    | null => simp [truthy] at htr
                    | bool c => simp at hg
                    | num c => simp at hg
                    | obj c => simp at hg
                  · have htr2 : truthy (some xv) = false := by
                      revert htr
                      cases truthy (some xv) <;> simp
                    simp only [htr2, Bool.not_false, if_true, if_pos] at hg ⊢
                    rfl
          | null => simp only [] at hg ⊢; rfl
          | bool b => rfl
          | num v => rfl
          | str s => rfl
          | arr xs => rfl
theorem expand_obj_layers (dfs : List (String × JVal)) (d2 : JVal) (ls : List JVal)
    (hlay : lookupField dfs "layers" = some (.arr ls))
    (h : expandTmCycles (.obj dfs) = .ok d2) :
    ∃ ls2 dfs2, walkList ls = .ok ls2 ∧ d2 = .obj dfs2 ∧
      lookupField dfs2 "layers" = some (.arr ls2) := by
  rw [expandTmCycles] at h
  simp only [hlay] at h
  cases hwl : walkList ls with
  | error e => simp [hwl, bind, Except.bind] at h
  | ok ls2 =>
      simp only [hwl, bind, Except.bind, Except.pure, pure] at h
      refine ⟨ls2, ?_⟩
      split at h
      · rename_i as heqa
        split at h
        · cases h
        · rename_i as2 heqm
          cases h
          refine ⟨_, rfl, rfl, ?_⟩
          rw [lookup_setField_ne _ "assets" "layers" _ (by decide), lookup_setField_eq]
      · cases h
        refine ⟨_, rfl, rfl, ?_⟩
        rw [lookup_setField_eq]

theorem expand_obj_assets (dfs : List (String × JVal)) (d2 : JVal) (as : List JVal)
    (has : lookupField dfs "assets" = some (.arr as))
    (h : expandTmCycles (.obj dfs) = .ok d2) :
    ∃ as2 dfs2, as.mapM walkAsset = .ok as2 ∧ d2 = .obj dfs2 ∧
      lookupField dfs2 "assets" = some (.arr as2) := by
  rw [expandTmCycles] at h
  split at h
  · rename_i ls heql
    cases hwl : walkList ls with
    | error e => simp [hwl, bind, Except.bind] at h
    | ok ls2 =>
        simp only [hwl, bind, Except.bind, Except.pure, pure] at h
        rw [lookup_setField_ne _ "layers" "assets" _ (by decide)] at h
        simp only [has] at h
        cases hma : as.mapM walkAsset with
        | error e =>
            rw [hma] at h
            cases h
        | ok as2 =>
            rw [hma] at h
            cases h
            exact ⟨as2, _, rfl, rfl, by rw [lookup_setField_eq]⟩
  · simp only [bind, Except.bind, Except.pure, pure] at h
    simp only [has] at h
    cases hma : as.mapM walkAsset with
    | error e =>
        rw [hma] at h
        cases h
    | ok as2 =>
        rw [hma] at h
        cases h
        exact ⟨as2, _, rfl, rfl, by rw [lookup_setField_eq]⟩

theorem walkAsset_spec (a a2 : JVal) (h : walkAsset a = .ok a2) (ls : List JVal)
    (hl : assetLayerList a = some ls) :
    ∃ ls2, walkList ls = .ok ls2 ∧ assetLayerList a2 = some ls2 := by
  cases a with
  | null => cases h
  | obj afs =>
      rw [walkAsset] at h
      rw [assetLayerList] at hl
      cases hlay : lookupField afs "layers" with
      | none => rw [hlay] at hl; cases hl
      | some lv =>
          rw [hlay] at hl h
          cases lv with
          | arr ls0 =>
              have hls : ls0 = ls := by simpa using hl
              subst hls
              cases hwl : walkList ls0 with
              | error e => simp [hwl, bind, Except.bind] at h
              | ok ls2 =>
                  simp only [hwl, bind, Except.bind, Except.pure, pure] at h
                  cases h
                  exact ⟨ls2, rfl, by rw [assetLayerList, lookup_setField_eq]⟩
          | null => cases hl
          | bool c => cases hl
          | num c => cases hl
          | str c => cases hl
          | obj c => cases hl
  | bool b => simp [assetLayerList] at hl
  | num v => simp [assetLayerList] at hl
  | str s => simp [assetLayerList] at hl
  | arr xs => simp [assetLayerList] at hl
theorem processLayer_shape (l l2 : JVal) (h : processLayer l = .ok l2) :
    l2 = l ∨ ∃ lfs tfs2, l2 = .obj lfs ∧
      lookupField lfs "tm" = some (.obj tfs2) ∧ lookupField tfs2 "x" = none := by
  cases l with
  | null => cases h
  | bool b => cases h; exact Or.inl rfl
  | num v => cases h; exact Or.inl rfl
  | str s => cases h; exact Or.inl rfl
  | arr xs => cases h; exact Or.inl rfl
  | obj lfs =>
      rw [processLayer] at h
      cases htm : lookupField lfs "tm" with
      | none => simp only [htm] at h; cases h; exact Or.inl rfl
      | some tmv =>
          simp only [htm] at h
          cases tmv with
          | null => cases h; exact Or.inl rfl
          | bool c => cases h; exact Or.inl rfl
          | num c => cases h; exact Or.inl rfl
          | str c => cases h; exact Or.inl rfl
          | arr c => cases h; exact Or.inl rfl
          | obj tfs =>
              cases hx : lookupField tfs "x" with
              | none => simp only [hx] at h; cases h; exact Or.inl rfl
              | some xv =>
                  simp only [hx] at h
                  by_cases htr : truthy (some xv) = true
                  · simp only [htr, Bool.not_true, Bool.false_eq_true, if_false] at h
                    cases xv with
                    | null => simp [truthy] at htr
                    | bool c => cases h
                    | num c => cases h
                    | obj c => cases h
                    | str s =>
                        simp only [bind, Except.bind, Except.pure, pure] at h
                        by_cases hm : strIncludes s "loopOut" = true
                        · simp only [hm, Bool.not_true, Bool.false_eq_true, if_false] at h
                          cases hk : lookupField tfs "k" with
                          | none => simp only [hk] at h; cases h; exact Or.inl rfl
                          | some kv =>
                              simp only [hk] at h
                              cases kv with
                              | null => cases h; exact Or.inl rfl
                              | bool c => cases h; exact Or.inl rfl
                              | num c => cases h; exact Or.inl rfl
                              | str c => cases h; exact Or.inl rfl
                              | obj c => cases h; exact Or.inl rfl
                              | arr kfs =>
                                  by_cases hlen : kfs.length < 2
                                  · simp only [hlen, if_true, if_pos] at h
                                    cases h
                                    exact Or.inl rfl
                                  · simp only [hlen, if_false, if_neg] at h
                                    cases hgl : jsGet (kfs.getLastD .null) "t" with
                                    | error e => rw [hgl] at h; cases h
                                    | ok tl =>
                                        rw [hgl] at h
                                        cases hgf : jsGet (kfs.headD .null) "t" with
                                        | error e =>
                                            simp only [hgf, Except.bind] at h
                                            cases h
                                        | ok tf =>
                                            simp only [hgf, Except.bind] at h
                                            by_cases hq : qle0Opt (jsSub tl tf) = true
                                            · simp only [hq, if_true, if_pos] at h
                                              cases h
                                              exact Or.inl rfl
                                            · simp only [hq, if_false, if_neg, Bool.false_eq_true] at h
                                              cases hbe : buildExpanded
                                                  (cyclesIters (Option.map (fun z => z + 1)
                                                    (jsCeil (jsDivQ (jsSub
                                                      (if truthy (lookupField lfs "op") = true
                                                        then lookupField lfs "op"
                                                        else some (jq 900))
                                                      (if truthy (lookupField lfs "ip") = true
                                                        then lookupField lfs "ip"
                                                        else some (jq 0)))
                                                      (jsSub tl tf)))))
                                                  (jsSub tl tf) kfs with
                                              | error e => rw [hbe] at h; cases h
                                              | ok expanded =>
                                                  rw [hbe] at h
                                                  simp only [Except.bind, Except.pure, pure,
                                                    Except.ok.injEq] at h
                                                  refine Or.inr
                                                    ⟨setField lfs "tm" (.obj (deleteField
                                                        (setField tfs "k" (.arr expanded)) "x")),
                                                      deleteField (setField tfs "k"
                                                        (.arr expanded)) "x",
                                                      h.symm, ?_, ?_⟩
                                                  · rw [lookup_setField_eq]
                                                  · rw [lookup_deleteField]
                        · have hm2 : strIncludes s "loopOut" = false := by
                            revert hm
                            cases strIncludes s "loopOut" <;> simp
                          simp only [hm2, Bool.not_false, if_true, if_pos] at h
                          cases h
                          exact Or.inl rfl
                    | arr xs =>
                        simp only [bind, Except.bind, Except.pure, pure] at h
                        by_cases hm : (xs.any fun v => match v with
                            | .str s => s == "loopOut"
                            | _ => false) = true
                        · simp only [hm, Bool.not_true, Bool.false_eq_true, if_false] at h
                          cases hk : lookupField tfs "k" with
                          | none => simp only [hk] at h; cases h; exact Or.inl rfl
                          | some kv =>
                              simp only [hk] at h
                              cases kv with
                              | null => cases h; exact Or.inl rfl
                              | bool c => cases h; exact Or.inl rfl
                              | num c => cases h; exact Or.inl rfl
                              | str c => cases h; exact Or.inl rfl
                              | obj c => cases h; exact Or.inl rfl
                              | arr kfs =>
                                  by_cases hlen : kfs.length < 2
                                  · simp only [hlen, if_true, if_pos] at h
                                    cases h
                                    exact Or.inl rfl
                                  · simp only [hlen, if_false, if_neg] at h
                                    cases hgl : jsGet (kfs.getLastD .null) "t" with
                                    | error e => rw [hgl] at h; cases h
                                    | ok tl =>
                                        rw [hgl] at h
                                        cases hgf : jsGet (kfs.headD .null) "t" with
                                        | error e =>
                                            simp only [hgf, Except.bind] at h
                                            cases h
                                        | ok tf =>
                                            simp only [hgf, Except.bind] at h
                                            by_cases hq : qle0Opt (jsSub tl tf) = true
                                            · simp only [hq, if_true, if_pos] at h
                                              cases h
                                              exact Or.inl rfl
                                            · simp only [hq, if_false, if_neg, Bool.false_eq_true] at h
                                              cases hbe : buildExpanded
                                                  (cyclesIters (Option.map (fun z => z + 1)
                                                    (jsCeil (jsDivQ (jsSub
                                                      (if truthy (lookupField lfs "op") = true
                                                        then lookupField lfs "op"
                                                        else some (jq 900))
                                                      (if truthy (lookupField lfs "ip") = true
                                                        then lookupField lfs "ip"
                                                        else some (jq 0)))
                                                      (jsSub tl tf)))))
                                                  (jsSub tl tf) kfs with
                                              | error e => rw [hbe] at h; cases h
                                              | ok expanded =>
                                                  rw [hbe] at h
                                                  simp only [Except.bind, Except.pure, pure,
                                                    Except.ok.injEq] at h
                                                  refine Or.inr
                                                    ⟨setField lfs "tm" (.obj (deleteField
                                                        (setField tfs "k" (.arr expanded)) "x")),
                                                      deleteField (setField tfs "k"
                                                        (.arr expanded)) "x",
                                                      h.symm, ?_, ?_⟩
                                                  · rw [lookup_setField_eq]
                                                  · rw [lookup_deleteField]
                        · have hm2 : (xs.any fun v => match v with
                              | .str s => s == "loopOut"
                              | _ => false) = false := by
                            revert hm
                            cases hx2 : xs.any fun v => match v with
                              | .str s => s == "loopOut"
                              | _ => false
                            · simp
                            · simp
                          simp only [hm2, Bool.not_false, if_true, if_pos] at h
                          cases h
                          exact Or.inl rfl
                  · have htr2 : truthy (some xv) = false := by
                      revert htr
                      cases truthy (some xv) <;> simp
                    simp only [htr2, Bool.not_false, if_true, if_pos] at h
                    cases h
                    exact Or.inl rfl

theorem processLayer_idem (l l2 : JVal) (h : processLayer l = .ok l2) :
    processLayer l2 = .ok l2 := by
  rcases processLayer_shape l l2 h with rfl | ⟨lfs, tfs2, rfl, htm, hx⟩
  · exact h
  · rw [processLayer]
    simp only [htm, hx]
    rfl

theorem walkAsset_idem (a a2 : JVal) (h : walkAsset a = .ok a2) :
    walkAsset a2 = .ok a2 := by
  cases a with
  | null => cases h
  | bool b => cases h; rfl
  | num v => cases h; rfl
  | str s => cases h; rfl
  | arr xs => cases h; rfl
  | obj afs =>
      rw [walkAsset] at h
      cases hlay : lookupField afs "layers" with
      | none =>
          simp only [hlay] at h
          cases h
          rw [walkAsset]
          simp only [hlay]
          rfl
      | some lv =>
          simp only [hlay] at h
          cases lv with
          | arr ls =>
              cases hwl : walkList ls with
              | error e => simp [hwl, bind, Except.bind] at h
              | ok ls2 =>
                  simp only [hwl, bind, Except.bind, Except.pure, pure] at h
                  cases h
                  rw [walkAsset]
                  simp only [lookup_setField_eq]
                  have hidem : walkList ls2 = .ok ls2 :=
                    mapM_idem processLayer processLayer_idem ls ls2 hwl
                  rw [hidem]
                  simp only [bind, Except.bind, Except.pure, pure, setField_setField]
          | null => cases h; rw [walkAsset]; simp only [hlay]; rfl
          | bool c => cases h; rw [walkAsset]; simp only [hlay]; rfl
          | num c => cases h; rw [walkAsset]; simp only [hlay]; rfl
          | str c => cases h; rw [walkAsset]; simp only [hlay]; rfl
          | obj c => cases h; rw [walkAsset]; simp only [hlay]; rfl


/-- C7: a second application of `expandTmCycles` to an already-transformed
document leaves it unchanged: every layer the first pass expanded lost its
`tm.x`, so the first guard fires on the second pass, and every other layer
repeats the guard path it took the first time.  Hence the transform
composed with itself equals a single application. -/
theorem c7_idempotent (d d2 : JVal) (h : expandTmCycles d = .ok d2) :
    expandTmCycles d2 = .ok d2 := by
  cases d with
  | null => cases h
  | bool b => cases h; rfl
  | num v => cases h; rfl
  | str s => cases h; rfl
  | arr xs => cases h; rfl
  | obj dfs =>
      have h0 := h
      rw [expandTmCycles] at h
      split at h
      · rename_i ls hlay
        cases hwl : walkList ls with
        | error e => simp [hwl, bind, Except.bind] at h
        | ok ls1 =>
            simp only [hwl, bind, Except.bind, Except.pure, pure] at h
            have hidem : walkList ls1 = .ok ls1 :=
              mapM_idem processLayer processLayer_idem ls ls1 hwl
            rw [lookup_setField_ne _ "layers" "assets" _ (by decide)] at h
            split at h
            · rename_i as hav
              cases hma : as.mapM walkAsset with
              | error e => rw [hma] at h; cases h
              | ok as1 =>
                  rw [hma] at h
                  cases h
                  rw [expandTmCycles]
                  rw [lookup_setField_ne _ "assets" "layers" _ (by decide),
                    lookup_setField_eq]
                  simp only [hidem, bind, Except.bind, Except.pure, pure]
                  rw [setField_already _ "layers" _
                    (by rw [lookup_setField_ne _ "assets" "layers" _ (by decide),
                      lookup_setField_eq])]
                  rw [lookup_setField_eq]
                  have hma2 : as1.mapM walkAsset = .ok as1 :=
                    mapM_idem walkAsset walkAsset_idem as as1 hma
                  simp only [hma2]
                  rw [setField_already _ "assets" _ (by rw [lookup_setField_eq])]
            · rename_i hfactsA
              cases h
              rw [expandTmCycles]
              simp only [lookup_setField_eq]
              simp only [hidem, bind, Except.bind, Except.pure, pure]
              rw [setField_already _ "layers" _ (by rw [lookup_setField_eq])]
              rw [lookup_setField_ne _ "layers" "assets" _ (by decide)]
              split
              · rename_i as2 hav2
                exact absurd hav2 (fun hx => hfactsA as2 hx)
              · rfl
      · rename_i hnolay
        simp only [bind, Except.bind, Except.pure, pure] at h
        split at h
        · rename_i as hav
          cases hma : as.mapM walkAsset with
          | error e => rw [hma] at h; cases h
          | ok as1 =>
              rw [hma] at h
              cases h
              rw [expandTmCycles]
              rw [lookup_setField_ne _ "assets" "layers" _ (by decide)]
              split
              · rename_i ls2 hlay2
                exact absurd hlay2 (fun hx => hnolay ls2 hx)
              · simp only [bind, Except.bind, Except.pure, pure]
                rw [lookup_setField_eq]
                have hma2 : as1.mapM walkAsset = .ok as1 :=
                  mapM_idem walkAsset walkAsset_idem as as1 hma
                simp only [hma2]
                rw [setField_already _ "assets" _ (by rw [lookup_setField_eq])]
        · cases h
          exact h0
/-- C6: both traversal roots are visited independently: a layer reachable
only through `assets[i].layers` is transformed by exactly the same
per-layer step as a top-level layer, with the same result. -/
theorem c6_asset_traversal (l l2 : JVal) (h : processLayer l = .ok l2) :
    expandTmCycles (mkTopDoc l) = .ok (mkTopDoc l2) ∧
    expandTmCycles (mkAssetDoc l) = .ok (mkAssetDoc l2) := by
  have hwl : walkList [l] = .ok [l2] := by
    rw [walkList, List.mapM_cons, h, List.mapM_nil]
    rfl
  constructor
  · rw [mkTopDoc, expandTmCycles]
    have hlook : lookupField [("layers", JVal.arr [l])] "layers" = some (.arr [l]) := rfl
    simp only [hlook, hwl, bind, Except.bind, Except.pure, pure]
    have hset : setField [("layers", JVal.arr [l])] "layers" (JVal.arr [l2]) =
        [("layers", JVal.arr [l2])] := rfl
    simp only [hset]
    have hnoassets : lookupField [("layers", JVal.arr [l2])] "assets" = none := rfl
    simp only [hnoassets]
    rfl
  · rw [mkAssetDoc, expandTmCycles]
    have hnolay : lookupField [("assets",
        JVal.arr [.obj [("layers", .arr [l])]])] "layers" = none := rfl
    simp only [hnolay]
    have hwa : walkAsset (.obj [("layers", .arr [l])]) =
        .ok (.obj [("layers", .arr [l2])]) := by
      rw [walkAsset]
      have hlook2 : lookupField [("layers", JVal.arr [l])] "layers" = some (.arr [l]) := rfl
      simp only [hlook2, hwl, bind, Except.bind, Except.pure, pure]
      rfl
    have hlooka : lookupField [("assets", JVal.arr [.obj [("layers", .arr [l])]])]
        "assets" = some (.arr [.obj [("layers", .arr [l])]]) := rfl
    simp only [hlooka, bind, Except.bind, Except.pure, pure]
    have hma : List.mapM walkAsset [JVal.obj [("layers", .arr [l])]] =
        .ok [JVal.obj [("layers", .arr [l2])]] := by
      rw [List.mapM_cons, hwa, List.mapM_nil]
      rfl
    simp only [hma]
    rfl
theorem mapM_ok_exists {α β : Type} (f : α → Except Unit β) :
    ∀ l : List α, (∀ x ∈ l, ∃ y, f x = .ok y) → ∃ l2, l.mapM f = .ok l2 := by
  intro l
  induction l with
  | nil => intro _; exact ⟨[], rfl⟩
  | cons a r ih =>
      intro hall
      obtain ⟨y, hy⟩ := hall a (List.mem_cons_self a r)
      obtain ⟨l2, hl2⟩ := ih (fun x hx => hall x (List.mem_cons_of_mem a hx))
      refine ⟨y :: l2, ?_⟩
      rw [List.mapM_cons, hy, hl2]
      rfl

theorem shiftKf_obj (off : Option ℚ) (fs : List (String × JVal)) :
    shiftKf off (.obj fs) =
      .ok (.obj (setField (jsonRoundFields fs) "t"
        (jsAddVal (lookupField fs "t") off))) := rfl

theorem getLastD_mem (l : List JVal) (d : JVal) (h : l ≠ []) : l.getLastD d ∈ l := by
  induction l with
  | nil => exact absurd rfl h
  | cons a r ih =>
      cases hr : r with
      | nil => simp [List.getLastD]
      | cons b rb =>
          rw [List.getLastD_cons]
          subst hr
          have := ih (by simp)
          rw [List.getLastD] at this
          exact List.mem_cons_of_mem a this

theorem headD_mem (l : List JVal) (d : JVal) (h : l ≠ []) : l.headD d ∈ l := by
  cases l with
  | nil => exact absurd rfl h
  | cons a r => simp [List.headD]

theorem buildExpanded_ok (n : ℕ) (cd : Option ℚ) (kfs : List JVal)
    (hcp : ∀ kf ∈ kfs, copyable kf = true) :
    ∃ out, buildExpanded n cd kfs = .ok out := by
  have hinner : ∀ c : ℕ, ∃ l2, kfs.mapM
      (shiftKf (cd.map (fun cdq => qmul (qofNat c) cdq))) = .ok l2 := by
    intro c
    apply mapM_ok_exists
    intro kf hkf
    have := hcp kf hkf
    cases kf with
    | obj fs => exact ⟨_, shiftKf_obj _ fs⟩
    | arr xs => exact ⟨_, rfl⟩
    | null => simp [copyable] at this
    | bool b => simp [copyable] at this
    | num v => simp [copyable] at this
    | str s => simp [copyable] at this
  obtain ⟨blocks, hblocks⟩ := mapM_ok_exists _ (List.range n) (fun c _ => hinner c)
  refine ⟨blocks.flatten, ?_⟩
  rw [buildExpanded, hblocks]
  rfl

theorem processLayer_ok (l : JVal) (hok : layerOk l = true) :
    ∃ l2, processLayer l = .ok l2 := by
  cases l with
  | null => simp [layerOk] at hok
  | bool b => exact ⟨_, rfl⟩
  | num v => exact ⟨_, rfl⟩
  | str s => exact ⟨_, rfl⟩
  | arr xs => exact ⟨_, rfl⟩
  | obj lfs =>
      rw [layerOk] at hok
      rw [processLayer]
      cases htm : lookupField lfs "tm" with
      | none => exact ⟨_, by simp only [htm]; rfl⟩
      | some tmv =>
          simp only [htm] at hok ⊢
          cases tmv with
          | null => exact ⟨_, rfl⟩
          | bool c => exact ⟨_, rfl⟩
          | num c => exact ⟨_, rfl⟩
          | str c => exact ⟨_, rfl⟩
          | arr c => exact ⟨_, rfl⟩
          | obj tfs =>
              cases hx : lookupField tfs "x" with
              | none => exact ⟨_, by simp only [hx]; rfl⟩
              | some xv =>
                  simp only [hx] at hok ⊢
                  by_cases htr : truthy (some xv) = true
                  · simp only [htr, Bool.not_true, Bool.false_eq_true, if_false] at hok ⊢
                    cases xv with
                    | null => simp [truthy] at htr
                    | bool c => simp at hok
                    | num c => simp at hok
                    | obj c => simp at hok
                    | str s =>
                        simp only [bind, Except.bind, Except.pure, pure]
                        by_cases hm : strIncludes s "loopOut" = true
                        · simp only [hm, Bool.not_true, Bool.false_eq_true, if_false] at hok ⊢
                          cases hk : lookupField tfs "k" with
                          | none => rw [kOk, hk] at hok; exact ⟨_, by simp only [hk]; rfl⟩
                          | some kv =>
                              rw [kOk, hk] at hok
                              cases kv with
                              | null => exact ⟨_, rfl⟩
                              | bool c => exact ⟨_, rfl⟩
                              | num c => exact ⟨_, rfl⟩
                              | str c => exact ⟨_, rfl⟩
                              | obj c => exact ⟨_, rfl⟩
                              | arr kfs =>
                                  by_cases hlen : kfs.length < 2
                                  · exact ⟨_, by simp only [hlen, if_true, if_pos]; rfl⟩
                                  · simp only [hlen, if_false, if_neg]
                                    have hne : kfs ≠ [] := by
                                      intro he
                                      rw [he] at hlen
                                      simp at hlen
                                    have h2 : (decide (kfs.length < 2) ||
                                        (nonNull (kfs.getLastD .null) &&
                                         nonNull (kfs.headD .null) &&
                                         (qle0Opt (jsSub (tOf (kfs.getLastD .null))
                                            (tOf (kfs.headD .null))) ||
                                          kfs.all copyable))) = true := hok
                                    rw [decide_eq_false hlen] at h2
                                    simp only [Bool.false_or, Bool.and_eq_true,
                                      Bool.or_eq_true] at h2
                                    obtain ⟨⟨hlnn, hhnn⟩, hrest⟩ := h2
                                    have hlne : kfs.getLastD .null ≠ .null := by
                                      intro he
                                      rw [he] at hlnn
                                      simp [nonNull] at hlnn
                                    have hfne : kfs.headD .null ≠ .null := by
                                      intro he
                                      rw [he] at hhnn
                                      simp [nonNull] at hhnn
                                    rw [jsGet_eq_tOf _ hlne, jsGet_eq_tOf _ hfne]
                                    simp only [Except.bind]
                                    by_cases hq : qle0Opt (jsSub
                                        (tOf (kfs.getLastD .null))
                                        (tOf (kfs.headD .null))) = true
                                    · exact ⟨_, by rw [if_pos hq]⟩
                                    · rw [if_neg hq]
                                      have hall : ∀ kf ∈ kfs, copyable kf = true := by
                                        rcases hrest with hg | hcp
                                        · exact absurd hg hq
                                        · exact fun kf hkf =>
                                            List.all_eq_true.mp hcp kf hkf
                                      obtain ⟨out, hout⟩ := buildExpanded_ok _ _ kfs hall
                                      rw [hout]
                                      exact ⟨_, rfl⟩
                        · have hm2 : strIncludes s "loopOut" = false := by
                            revert hm
                            cases strIncludes s "loopOut" <;> simp
                          exact ⟨_, by simp only [hm2, Bool.not_false, if_true, if_pos]; rfl⟩
                    | arr xs =>
                        simp only [bind, Except.bind, Except.pure, pure]
                        by_cases hm : xs.any isLoopStr = true
                        · have hmm : (xs.any fun v => match v with
                              | .str s => s == "loopOut"
                              | _ => false) = true := hm
                          simp only [hm, hmm, Bool.not_true, Bool.false_eq_true,
                            if_false] at hok ⊢
                          cases hk : lookupField tfs "k" with
                          | none => rw [kOk, hk] at hok; exact ⟨_, by simp only [hk]; rfl⟩
                          | some kv =>
                              rw [kOk, hk] at hok
                              cases kv with
                              | null => exact ⟨_, rfl⟩
                              | bool c => exact ⟨_, rfl⟩
                              | num c => exact ⟨_, rfl⟩
                              | str c => exact ⟨_, rfl⟩
                              | obj c => exact ⟨_, rfl⟩
                              | arr kfs =>
                                  by_cases hlen : kfs.length < 2
                                  · exact ⟨_, by simp only [hlen, if_true, if_pos]; rfl⟩
                                  · simp only [hlen, if_false, if_neg]
                                    have hne : kfs ≠ [] := by
                                      intro he
                                      rw [he] at hlen
                                      simp at hlen
                                    have h2 : (decide (kfs.length < 2) ||
                                        (nonNull (kfs.getLastD .null) &&
                                         nonNull (kfs.headD .null) &&
                                         (qle0Opt (jsSub (tOf (kfs.getLastD .null))
                                            (tOf (kfs.headD .null))) ||
                                          kfs.all copyable))) = true := hok
                                    rw [decide_eq_false hlen] at h2
                                    simp only [Bool.false_or, Bool.and_eq_true,
                                      Bool.or_eq_true] at h2
                                    obtain ⟨⟨hlnn, hhnn⟩, hrest⟩ := h2
                                    have hlne : kfs.getLastD .null ≠ .null := by
                                      intro he
                                      rw [he] at hlnn
                                      simp [nonNull] at hlnn
                                    have hfne : kfs.headD .null ≠ .null := by
                                      intro he
                                      rw [he] at hhnn
                                      simp [nonNull] at hhnn
                                    rw [jsGet_eq_tOf _ hlne, jsGet_eq_tOf _ hfne]
                                    simp only [Except.bind]
                                    by_cases hq : qle0Opt (jsSub
                                        (tOf (kfs.getLastD .null))
                                        (tOf (kfs.headD .null))) = true
                                    · exact ⟨_, by rw [if_pos hq]⟩
                                    · rw [if_neg hq]
                                      have hall : ∀ kf ∈ kfs, copyable kf = true := by
                                        rcases hrest with hg | hcp
                                        · exact absurd hg hq
                                        · exact fun kf hkf =>
                                            List.all_eq_true.mp hcp kf hkf
                                      obtain ⟨out, hout⟩ := buildExpanded_ok _ _ kfs hall
                                      rw [hout]
                                      exact ⟨_, rfl⟩
                        · have hm2 : xs.any isLoopStr = false := by
                            revert hm
                            cases xs.any isLoopStr <;> simp
                          have hmm : (xs.any fun v => match v with
                              | .str s => s == "loopOut"
                              | _ => false) = false := hm2
                          exact ⟨_, by simp only [hmm, Bool.not_false, if_true, if_pos]; rfl⟩
                  · have htr2 : truthy (some xv) = false := by
                      revert htr
                      cases truthy (some xv) <;> simp
                    exact ⟨_, by simp only [htr2, Bool.not_false, if_true, if_pos]; rfl⟩
theorem walkList_ok (ls : List JVal) (h : ls.all layerOk = true) :
    ∃ ls2, walkList ls = .ok ls2 :=
  mapM_ok_exists processLayer ls
    (fun x hx => processLayer_ok x (List.all_eq_true.mp h x hx))

theorem walkAsset_ok (a : JVal) (h : assetOk a = true) :
    ∃ a2, walkAsset a = .ok a2 := by
  cases a with
  | null => simp [assetOk] at h
  | bool b => exact ⟨_, rfl⟩
  | num v => exact ⟨_, rfl⟩
  | str s => exact ⟨_, rfl⟩
  | arr xs => exact ⟨_, rfl⟩
  | obj afs =>
      rw [assetOk] at h
      rw [walkAsset]
      cases hlay : lookupField afs "layers" with
      | none => exact ⟨_, by simp only [hlay]; rfl⟩
      | some lv =>
          simp only [hlay] at h ⊢
          cases lv with
          | arr ls =>
              have h2 : ls.all layerOk = true := h
              obtain ⟨ls2, hls2⟩ := walkList_ok ls h2
              exact ⟨_, by simp only [hls2, bind, Except.bind, Except.pure, pure]; rfl⟩
          | null => exact ⟨_, rfl⟩
          | bool c => exact ⟨_, rfl⟩
          | num c => exact ⟨_, rfl⟩
          | str c => exact ⟨_, rfl⟩
          | obj c => exact ⟨_, rfl⟩

/-- C4 (amended): `expandTmCycles` completes normally on every well-shaped
document: the document itself is not null, every entry of a traversed
layers array is non-null, every truthy `tm.x` is a string or an array,
and each keyframe list that passes the marker test and the length test
has non-null first and last keyframes and either returns through the
non-positive cycle-duration guard before copying anything or consists of
objects and arrays.  Well-shapedness is a sufficient condition for
normal completion, not an exact boundary (a list whose keyframe times
are not numbers gets a NaN cycle duration, so the copy loop runs zero
times and nothing throws either); the original claim's universal
no-throw promise is nevertheless false — see the counterexample on the
null document. -/
theorem c4_no_throw (d : JVal) (h : wellShaped d = true) :
    ∃ d2, expandTmCycles d = .ok d2 := by
  cases d with
  | null => simp [wellShaped] at h
  | bool b => exact ⟨_, rfl⟩
  | num v => exact ⟨_, rfl⟩
  | str s => exact ⟨_, rfl⟩
  | arr xs => exact ⟨_, rfl⟩
  | obj dfs =>
      rw [wellShaped] at h
      rw [expandTmCycles]
      have hl := (Bool.and_eq_true _ _ |>.mp h).1
      have ha := (Bool.and_eq_true _ _ |>.mp h).2
      cases hlay : lookupField dfs "layers" with
      | some lv =>
          rw [hlay] at hl
          cases lv with
          | arr ls =>
              obtain ⟨ls2, hls2⟩ := walkList_ok ls hl
              simp only [hlay, hls2, bind, Except.bind, Except.pure, pure]
              rw [lookup_setField_ne _ "layers" "assets" _ (by decide)]
              cases hav : lookupField dfs "assets" with
              | some av =>
                  rw [hav] at ha
                  cases av with
                  | arr as =>
                      obtain ⟨as2, has2⟩ := mapM_ok_exists walkAsset as
                        (fun x hx => walkAsset_ok x (List.all_eq_true.mp ha x hx))
                      exact ⟨_, by simp only [has2, bind, Except.bind, Except.pure, pure]; rfl⟩
                  | null => exact ⟨_, rfl⟩
                  | bool c => exact ⟨_, rfl⟩
                  | num c => exact ⟨_, rfl⟩
                  | str c => exact ⟨_, rfl⟩
                  | obj c => exact ⟨_, rfl⟩
              | none => exact ⟨_, rfl⟩
          | null =>
              simp only [hlay, bind, Except.bind, Except.pure, pure]
              cases hav : lookupField dfs "assets" with
              | some av =>
                  rw [hav] at ha
                  cases av with
                  | arr as =>
                      obtain ⟨as2, has2⟩ := mapM_ok_exists walkAsset as
                        (fun x hx => walkAsset_ok x (List.all_eq_true.mp ha x hx))
                      exact ⟨_, by simp only [has2, bind, Except.bind, Except.pure, pure]; rfl⟩
                  | null => exact ⟨_, rfl⟩
                  | bool c => exact ⟨_, rfl⟩
                  | num c => exact ⟨_, rfl⟩
                  | str c => exact ⟨_, rfl⟩
                  | obj c => exact ⟨_, rfl⟩
              | none => exact ⟨_, rfl⟩
          | bool c2 =>
              simp only [hlay, bind, Except.bind, Except.pure, pure]
              cases hav : lookupField dfs "assets" with
              | some av =>
                  rw [hav] at ha
                  cases av with
                  | arr as =>
                      obtain ⟨as2, has2⟩ := mapM_ok_exists walkAsset as
                        (fun x hx => walkAsset_ok x (List.all_eq_true.mp ha x hx))
                      exact ⟨_, by simp only [has2, bind, Except.bind, Except.pure, pure]; rfl⟩
                  | null => exact ⟨_, rfl⟩
                  | bool c => exact ⟨_, rfl⟩
                  | num c => exact ⟨_, rfl⟩
                  | str c => exact ⟨_, rfl⟩
                  | obj c => exact ⟨_, rfl⟩
              | none => exact ⟨_, rfl⟩
          | num c2 =>
              simp only [hlay, bind, Except.bind, Except.pure, pure]
              cases hav : lookupField dfs "assets" with
              | some av =>
                  rw [hav] at ha
                  cases av with
                  | arr as =>
                      obtain ⟨as2, has2⟩ := mapM_ok_exists walkAsset as
                        (fun x hx => walkAsset_ok x (List.all_eq_true.mp ha x hx))
                      exact ⟨_, by simp only [has2, bind, Except.bind, Except.pure, pure]; rfl⟩
                  | null => exact ⟨_, rfl⟩
                  | bool c => exact ⟨_, rfl⟩
                  | num c => exact ⟨_, rfl⟩
                  | str c => exact ⟨_, rfl⟩
                  | obj c => exact ⟨_, rfl⟩
              | none => exact ⟨_, rfl⟩
          | str c2 =>
              simp only [hlay, bind, Except.bind, Except.pure, pure]
              cases hav : lookupField dfs "assets" with
              | some av =>
                  rw [hav] at ha
                  cases av with
                  | arr as =>
                      obtain ⟨as2, has2⟩ := mapM_ok_exists walkAsset as
                        (fun x hx => walkAsset_ok x (List.all_eq_true.mp ha x hx))
                      exact ⟨_, by simp only [has2, bind, Except.bind, Except.pure, pure]; rfl⟩
                  | null => exact ⟨_, rfl⟩
                  | bool c => exact ⟨_, rfl⟩
                  | num c => exact ⟨_, rfl⟩
                  | str c => exact ⟨_, rfl⟩
                  | obj c => exact ⟨_, rfl⟩
              | none => exact ⟨_, rfl⟩
          | obj c2 =>
              simp only [hlay, bind, Except.bind, Except.pure, pure]
              cases hav : lookupField dfs "assets" with
              | some av =>
                  rw [hav] at ha
                  cases av with
                  | arr as =>
                      obtain ⟨as2, has2⟩ := mapM_ok_exists walkAsset as
                        (fun x hx => walkAsset_ok x (List.all_eq_true.mp ha x hx))
                      exact ⟨_, by simp only [has2, bind, Except.bind, Except.pure, pure]; rfl⟩
                  | null => exact ⟨_, rfl⟩
                  | bool c => exact ⟨_, rfl⟩
                  | num c => exact ⟨_, rfl⟩
                  | str c => exact ⟨_, rfl⟩
                  | obj c => exact ⟨_, rfl⟩
              | none => exact ⟨_, rfl⟩
      | none =>
          simp only [hlay, bind, Except.bind, Except.pure, pure]
          cases hav : lookupField dfs "assets" with
          | some av =>
              rw [hav] at ha
              cases av with
              | arr as =>
                  obtain ⟨as2, has2⟩ := mapM_ok_exists walkAsset as
                    (fun x hx => walkAsset_ok x (List.all_eq_true.mp ha x hx))
                  exact ⟨_, by simp only [has2, bind, Except.bind, Except.pure, pure]; rfl⟩
              | null => exact ⟨_, rfl⟩
              | bool c => exact ⟨_, rfl⟩
              | num c => exact ⟨_, rfl⟩
              | str c => exact ⟨_, rfl⟩
              | obj c => exact ⟨_, rfl⟩
          | none => exact ⟨_, rfl⟩
theorem hfind_hset_ne (h : Heap) (a b : ℕ) (n : GNode) (hne : b ≠ a) :
    hfind (hset h a n) b = hfind h b := by
  induction h with
  | nil => rfl
  | cons p r ih =>
      obtain ⟨c, m⟩ := p
      by_cases hc : c = a
      · subst hc
        rw [hset, if_pos rfl, hfind, hfind, if_neg (fun hcb => hne hcb.symm),
          if_neg (fun hcb => hne hcb.symm)]
      · rw [hset, if_neg hc]
        by_cases hcb : c = b
        · subst hcb
          rw [hfind, hfind, if_pos rfl, if_pos rfl]
        · rw [hfind, hfind, if_neg hcb, if_neg hcb, ih]

theorem hfind_hset_self (h : Heap) (a : ℕ) (n m : GNode) (hf : hfind h a = some m) :
    hfind (hset h a n) a = some n := by
  induction h with
  | nil => simp [hfind] at hf
  | cons p r ih =>
      obtain ⟨c, m2⟩ := p
      by_cases hc : c = a
      · subst hc
        rw [hset, if_pos rfl, hfind, if_pos rfl]
      · rw [hfind, if_neg hc] at hf
        rw [hset, if_neg hc, hfind, if_neg hc, ih hf]

theorem hset_of_none (h : Heap) (a : ℕ) (n : GNode) (hf : hfind h a = none) :
    hset h a n = h := by
  induction h with
  | nil => rfl
  | cons p r ih =>
      obtain ⟨c, m⟩ := p
      by_cases hc : c = a
      · subst hc
        rw [hfind, if_pos rfl] at hf
        cases hf
      · rw [hfind, if_neg hc] at hf
        rw [hset, if_neg hc, ih hf]

theorem cleanAt_find_self (h : Heap) (a : ℕ) :
    hfind (cleanAt h a) a = Option.map cleanNode (hfind h a) := by
  rw [cleanAt]
  cases hf : hfind h a with
  | none => simp [hf]
  | some n => simp [hfind_hset_self h a _ n hf]

theorem cleanAt_find_ne (h : Heap) (a b : ℕ) (hne : b ≠ a) :
    hfind (cleanAt h a) b = hfind h b := by
  rw [cleanAt]
  cases hf : hfind h a with
  | none => rfl
  | some n => exact hfind_hset_ne h a b _ hne

theorem heapWF_find {h : Heap} {a : ℕ} {n : GNode} (hwf : heapWF h = true)
    (hf : hfind h a = some n) : nodeWF n = true := by
  induction h with
  | nil => simp [hfind] at hf
  | cons p r ih =>
      obtain ⟨c, m⟩ := p
      rw [heapWF, List.all_cons, Bool.and_eq_true] at hwf
      by_cases hc : c = a
      · subst hc
        rw [hfind, if_pos rfl] at hf
        cases hf
        exact hwf.1
      · rw [hfind, if_neg hc] at hf
        exact ih hwf.2 hf

theorem heapWF_hset {h : Heap} {a : ℕ} {n : GNode} (hwf : heapWF h = true)
    (hn : nodeWF n = true) : heapWF (hset h a n) = true := by
  induction h with
  | nil => rfl
  | cons p r ih =>
      obtain ⟨c, m⟩ := p
      rw [heapWF, List.all_cons, Bool.and_eq_true] at hwf
      by_cases hc : c = a
      · subst hc
        rw [hset, if_pos rfl, heapWF, List.all_cons]
        simp [hn, hwf.2]
      · rw [hset, if_neg hc, heapWF, List.all_cons]
        simp only [Bool.and_eq_true]
        exact ⟨hwf.1, ih hwf.2⟩

theorem keys_removeFirstField (fs : List (String × GVal)) (k : String) :
    ((removeFirstField fs k).map Prod.fst).Sublist (fs.map Prod.fst) := by
  induction fs with
  | nil => simp [removeFirstField]
  | cons p r ih =>
      obtain ⟨k1, v⟩ := p
      by_cases hk : k1 = k
      · rw [removeFirstField, if_pos hk]
        simp
      · rw [removeFirstField, if_neg hk]
        simpa using ih

theorem glookup_removeFirstField {fs : List (String × GVal)} {k : String}
    (hnd : (fs.map Prod.fst).Nodup) : glookup (removeFirstField fs k) k = none := by
  induction fs with
  | nil => rfl
  | cons p r ih =>
      obtain ⟨k1, v⟩ := p
      simp only [List.map_cons, List.nodup_cons] at hnd
      by_cases hk : k1 = k
      · subst hk
        rw [removeFirstField, if_pos rfl]
        cases hg : glookup r k1 with
        | none => rfl
        | some w =>
            exfalso
            apply hnd.1
            clear ih hnd
            induction r with
            | nil => simp [glookup] at hg
            | cons q rq ihq =>
                obtain ⟨k2, v2⟩ := q
                by_cases hk2 : k2 = k1
                · subst hk2
                  simp
                · rw [glookup, if_neg hk2] at hg
                  simpa using Or.inr (ihq hg)
      · rw [removeFirstField, if_neg hk, glookup, if_neg hk]
        exact ih hnd.2

theorem nodeWF_cleanNode {n : GNode} (hn : nodeWF n = true) :
    nodeWF (cleanNode n) = true := by
  cases n with
  | arrN xs => rfl
  | objN fs =>
      rw [cleanNode, stripXFields]
      cases hg : glookup fs "x" with
      | none => exact hn
      | some v =>
          cases v with
          | ref b => exact hn
          | prim p =>
              cases p with
              | strP s =>
                  rw [nodeWF] at hn ⊢
                  rw [decide_eq_true_eq] at hn ⊢
                  exact hn.sublist (keys_removeFirstField fs "x")
              | nullP => exact hn
              | boolP b => exact hn
              | numP q => exact hn

theorem cleanNode_clean {n : GNode} (hn : nodeWF n = true) :
    nodeClean (some (cleanNode n)) = true := by
  cases n with
  | arrN xs => rfl
  | objN fs =>
      rw [cleanNode, stripXFields]
      cases hg : glookup fs "x" with
      | none => simp [nodeClean, hg]
      | some v =>
          cases v with
          | ref b => simp [nodeClean, hg]
          | prim p =>
              cases p with
              | strP s =>
                  rw [nodeWF, decide_eq_true_eq] at hn
                  simp [nodeClean, glookup_removeFirstField hn]
              | nullP => simp [nodeClean, hg]
              | boolP b => simp [nodeClean, hg]
              | numP q => simp [nodeClean, hg]

theorem cleanNode_idem {n : GNode} (hn : nodeWF n = true) :
    cleanNode (cleanNode n) = cleanNode n := by
  cases n with
  | arrN xs => rfl
  | objN fs =>
      have hclean := cleanNode_clean hn
      cases hcn : cleanNode (.objN fs) with
      | arrN xs => rfl
      | objN fs2 =>
          rw [hcn] at hclean
          rw [cleanNode, stripXFields]
          rw [nodeClean] at hclean
          cases hg : glookup fs2 "x" with
          | none => rfl
          | some v =>
              cases v with
              | ref b => rfl
              | prim p =>
                  cases p with
                  | strP s => rw [hg] at hclean; cases hclean
                  | nullP => rfl
                  | boolP b => rfl
                  | numP q => rfl
theorem mem_refsOf {vs : List GVal} {c : ℕ} : c ∈ refsOf vs ↔ GVal.ref c ∈ vs := by
  rw [refsOf, List.mem_filterMap]
  constructor
  · rintro ⟨v, hv, hfc⟩
    cases v with
    | ref b => simp only [Option.some.injEq] at hfc; subst hfc; exact hv
    | prim p => simp at hfc
  · intro hv
    exact ⟨.ref c, hv, rfl⟩

theorem refsOf_removeFirstField {fs : List (String × GVal)} {s : String}
    (hg : glookup fs "x" = some (.prim (.strP s))) :
    refsOf ((removeFirstField fs "x").map Prod.snd) = refsOf (fs.map Prod.snd) := by
  induction fs with
  | nil => rfl
  | cons p r ih =>
      obtain ⟨k1, v⟩ := p
      by_cases hk : k1 = "x"
      · subst hk
        rw [glookup, if_pos rfl] at hg
        cases hg
        rw [removeFirstField, if_pos rfl]
        simp [refsOf]
      · rw [glookup, if_neg hk] at hg
        rw [removeFirstField, if_neg hk]
        simp only [List.map_cons, refsOf, List.filterMap_cons]
        cases v with
        | prim p2 => exact ih hg
        | ref b => rw [← refsOf, ← refsOf, ih hg]

theorem nodeRefs_cleanNode (h : Heap) (a : ℕ) (n : GNode) (hf : hfind h a = some n)
    (b : ℕ) : refChildren (hset h a (cleanNode n)) b = refChildren h b := by
  by_cases hb : b = a
  · subst hb
    rw [refChildren, refChildren, hfind_hset_self h b _ n hf, hf]
    cases n with
    | arrN xs => rfl
    | objN fs =>
        rw [cleanNode, stripXFields]
        cases hg : glookup fs "x" with
        | none => rfl
        | some v =>
            cases v with
            | ref c => rfl
            | prim p =>
                cases p with
                | strP s => exact refsOf_removeFirstField hg
                | nullP => rfl
                | boolP c => rfl
                | numP q => rfl
  · rw [refChildren, refChildren, hfind_hset_ne h a b _ hb]

theorem refChildren_cleanAt (h : Heap) (a b : ℕ) :
    refChildren (cleanAt h a) b = refChildren h b := by
  rw [cleanAt]
  cases hf : hfind h a with
  | none => rfl
  | some n => exact nodeRefs_cleanNode h a n hf b

theorem reachAvoid_congr {h1 h2 : Heap} {S : List ℕ} {x y : ℕ}
    (heq : ∀ c, refChildren h2 c = refChildren h1 c)
    (hra : ReachAvoid h1 S x y) : ReachAvoid h2 S x y := by
  induction hra with
  | refl a ha => exact .refl a ha
  | step a b c ha hb _ ih => exact .step a b c ha (by rw [heq]; exact hb) ih

theorem reachAvoid_insert {h : Heap} {S : List ℕ} {x a : ℕ} (b : ℕ)
    (hra : ReachAvoid h S x a) (hne : a ≠ b) :
    ReachAvoid h (b :: S) x a ∨
      ∃ c, c ∈ refChildren h b ∧ ReachAvoid h (b :: S) c a := by
  induction hra with
  | refl y hy =>
      left
      refine .refl y ?_
      simp only [List.contains_cons, Bool.or_eq_false_iff]
      exact ⟨by simpa using hne, hy⟩
  | step y c2 z hy hc _ ih =>
      rcases ih hne with h1 | h2
      · by_cases hyb : y = b
        · subst hyb
          exact Or.inr ⟨c2, hc, h1⟩
        · left
          refine .step y c2 z ?_ hc h1
          simp only [List.contains_cons, Bool.or_eq_false_iff]
          exact ⟨by simpa using hyb, hy⟩
      · exact Or.inr h2
theorem strip_nil (h : Heap) (seen : List ℕ) : strip h seen [] = h := by
  rw [strip]

theorem strip_prim (h : Heap) (seen : List ℕ) (p : GPrim) (rest : List GVal) :
    strip h seen (.prim p :: rest) = strip h seen rest := by
  rw [strip]

theorem strip_ref_seen (h : Heap) (seen : List ℕ) (a : ℕ) (rest : List GVal)
    (hs : seen.contains a = true) :
    strip h seen (.ref a :: rest) = strip (cleanAt h a) seen rest := by
  rw [strip, dif_pos hs]

theorem strip_ref_dangling (h : Heap) (seen : List ℕ) (a : ℕ) (rest : List GVal)
    (hs : seen.contains a = false) (hf : hfind h a = none) :
    strip h seen (.ref a :: rest) = strip h seen rest := by
  rw [strip, dif_neg (by rw [hs]; exact Bool.false_ne_true)]
  split
  · rfl
  · rename_i items heq
    rw [hf] at heq
    cases heq
  · rename_i fs heq
    rw [hf] at heq
    cases heq

theorem strip_ref_arr (h : Heap) (seen : List ℕ) (a : ℕ) (rest : List GVal)
    (items : List GVal) (hs : seen.contains a = false)
    (hf : hfind h a = some (.arrN items)) :
    strip h seen (.ref a :: rest) = strip h (a :: seen) (items ++ rest) := by
  rw [strip, dif_neg (by rw [hs]; exact Bool.false_ne_true)]
  split
  · rename_i heq
    rw [hf] at heq
    cases heq
  · rename_i items2 heq
    rw [hf] at heq
    cases heq
    rfl
  · rename_i fs heq
    rw [hf] at heq
    cases heq

theorem strip_ref_obj (h : Heap) (seen : List ℕ) (a : ℕ) (rest : List GVal)
    (fs : List (String × GVal)) (hs : seen.contains a = false)
    (hf : hfind h a = some (.objN fs)) :
    strip h seen (.ref a :: rest) =
      strip (hset h a (.objN (stripXFields fs))) (a :: seen)
        ((stripXFields fs).map Prod.snd ++ rest) := by
  rw [strip, dif_neg (by rw [hs]; exact Bool.false_ne_true)]
  split
  · rename_i heq
    rw [hf] at heq
    cases heq
  · rename_i items2 heq
    rw [hf] at heq
    cases heq
  · rename_i fs2 heq
    rw [hf] at heq
    cases heq
    rfl
theorem heapWF_cleanAt {h : Heap} (a : ℕ) (hwf : heapWF h = true) :
    heapWF (cleanAt h a) = true := by
  rw [cleanAt]
  cases hf : hfind h a with
  | none => exact hwf
  | some n => exact heapWF_hset hwf (nodeWF_cleanNode (heapWF_find hwf hf))

theorem optEvolve_trans {x y z : Option GNode}
    (hwf : ∀ n, x = some n → nodeWF n = true)
    (h1 : y = x ∨ y = Option.map cleanNode x)
    (h2 : z = y ∨ z = Option.map cleanNode y) :
    z = x ∨ z = Option.map cleanNode x := by
  rcases h1 with rfl | rfl
  · exact h2
  · rcases h2 with rfl | rfl
    · right
      rfl
    · right
      cases hx : x with
      | none => rfl
      | some n => simp [cleanNode_idem (hwf n hx)]

theorem strip_evolves : ∀ (h : Heap) (seen : List ℕ) (work : List GVal),
    heapWF h = true → ∀ a, hfind (strip h seen work) a = hfind h a ∨
      hfind (strip h seen work) a = Option.map cleanNode (hfind h a) := by
  intro h seen work
  induction h, seen, work using strip.induct with
  | case1 h seen =>
      intro _ a
      rw [strip_nil]
      exact Or.inl rfl
  | case2 h seen p rest ih =>
      intro hwf a
      rw [strip_prim]
      exact ih hwf a
  | case3 h seen a rest hs ih =>
      intro hwf b
      rw [strip_ref_seen h seen a rest hs]
      have hstep : hfind (cleanAt h a) b = hfind h b ∨
          hfind (cleanAt h a) b = Option.map cleanNode (hfind h b) := by
        by_cases hb : b = a
        · subst hb
          exact Or.inr (cleanAt_find_self h b)
        · exact Or.inl (cleanAt_find_ne h a b hb)
      exact optEvolve_trans (fun n hn => heapWF_find hwf hn) hstep
        (ih (heapWF_cleanAt a hwf) b)
  | case4 h seen a rest hs hf ih =>
      intro hwf b
      rw [strip_ref_dangling h seen a rest (by simpa using hs) hf]
      exact ih hwf b
  | case5 h seen a rest hs items hf ih =>
      intro hwf b
      rw [strip_ref_arr h seen a rest items (by simpa using hs) hf]
      exact ih hwf b
  | case6 h seen a rest hs fs hf ih =>
      intro hwf b
      rw [strip_ref_obj h seen a rest fs (by simpa using hs) hf]
      have hstep : hfind (hset h a (.objN (stripXFields fs))) b = hfind h b ∨
          hfind (hset h a (.objN (stripXFields fs))) b =
            Option.map cleanNode (hfind h b) := by
        by_cases hb : b = a
        · subst hb
          right
          rw [hf, hfind_hset_self h b _ _ hf]
          rfl
        · exact Or.inl (hfind_hset_ne h a b _ hb)
      have hwf2 : heapWF (hset h a (.objN (stripXFields fs))) = true := by
        have : (GNode.objN (stripXFields fs)) = cleanNode (.objN fs) := rfl
        rw [this]
        exact heapWF_hset hwf (nodeWF_cleanNode (heapWF_find hwf hf))
      exact optEvolve_trans (fun n hn => heapWF_find hwf hn) hstep (ih hwf2 b)
theorem refsOf_stripXFields (fs : List (String × GVal)) :
    refsOf ((stripXFields fs).map Prod.snd) = refsOf (fs.map Prod.snd) := by
  rw [stripXFields]
  cases hg : glookup fs "x" with
  | none => rfl
  | some v =>
      cases v with
      | ref b => rfl
      | prim p =>
          cases p with
          | strP s => exact refsOf_removeFirstField hg
          | nullP => rfl
          | boolP b => rfl
          | numP q => rfl

theorem reachAvoid_head_not_self {h : Heap} {S : List ℕ} {x a : ℕ}
    (hra : ReachAvoid h (x :: S) x a) : False := by
  cases hra with
  | refl _ hc => simp at hc
  | step _ _ _ hc _ _ => simp at hc

theorem strip_reach_clean : ∀ (h : Heap) (seen : List ℕ) (work : List GVal),
    heapWF h = true → ∀ a b, GVal.ref b ∈ work → ReachAvoid h seen b a →
      nodeClean (hfind (strip h seen work) a) = true := by
  intro h seen work
  induction h, seen, work using strip.induct with
  | case1 h seen =>
      intro _ a b hmem _
      simp at hmem
  | case2 h seen p rest ih =>
      intro hwf a b hmem hra
      rw [strip_prim]
      rcases List.mem_cons.mp hmem with heq | hmem2
      · cases heq
      · exact ih hwf a b hmem2 hra
  | case3 h seen a2 rest hs ih =>
      intro hwf a b hmem hra
      rw [strip_ref_seen h seen a2 rest hs]
      rcases List.mem_cons.mp hmem with heq | hmem2
      · exfalso
        have hb2 : b = a2 := by
          cases heq
          rfl
        subst hb2
        cases hra with
        | refl _ hc => rw [hs] at hc; cases hc
        | step _ _ _ hc _ _ => rw [hs] at hc; cases hc
      · have hra2 : ReachAvoid (cleanAt h a2) seen b a :=
          reachAvoid_congr (fun c => refChildren_cleanAt h a2 c) hra
        exact ih (heapWF_cleanAt a2 hwf) a b hmem2 hra2
  | case4 h seen a2 rest hs hf ih =>
      intro hwf a b hmem hra
      rw [strip_ref_dangling h seen a2 rest (by simpa using hs) hf]
      rcases List.mem_cons.mp hmem with heq | hmem2
      · have hb2 : b = a2 := by
          cases heq
          rfl
        subst hb2
        cases hra with
        | refl y hy =>
            rcases strip_evolves h seen rest hwf a with he | he
            · rw [he, hf]
              rfl
            · rw [he, hf]
              rfl
        | step _ c _ _ hc _ =>
            rw [refChildren, hf] at hc
            simp at hc
      · exact ih hwf a b hmem2 hra
  | case5 h seen a2 rest hs items hf ih =>
      intro hwf a b hmem hra
      rw [strip_ref_arr h seen a2 rest items (by simpa using hs) hf]
      by_cases hab : a = a2
      · subst hab
        rcases strip_evolves h (a :: seen) (items ++ rest) hwf a with he | he
        · rw [he, hf]
          rfl
        · rw [he, hf]
          rfl
      · have hchild : ∀ c, c ∈ refChildren h a2 → GVal.ref c ∈ items ++ rest := by
          intro c hc
          rw [refChildren, hf] at hc
          exact List.mem_append.mpr (Or.inl (mem_refsOf.mp hc))
        rcases List.mem_cons.mp hmem with heq | hmem2
        · have hb2 : b = a2 := by
            cases heq
            rfl
          subst hb2
          rcases reachAvoid_insert b hra hab with hcase | ⟨c, hc, hrac⟩
          · exact absurd hcase reachAvoid_head_not_self
          · exact ih hwf a c (hchild c hc) hrac
        · rcases reachAvoid_insert a2 hra hab with hcase | ⟨c, hc, hrac⟩
          · exact ih hwf a b (List.mem_append.mpr (Or.inr hmem2)) hcase
          · exact ih hwf a c (hchild c hc) hrac
  | case6 h seen a2 rest hs fs hf ih =>
      intro hwf a b hmem hra
      rw [strip_ref_obj h seen a2 rest fs (by simpa using hs) hf]
      have hcleq : (GNode.objN (stripXFields fs)) = cleanNode (.objN fs) := rfl
      have hwf2 : heapWF (hset h a2 (.objN (stripXFields fs))) = true := by
        rw [hcleq]
        exact heapWF_hset hwf (nodeWF_cleanNode (heapWF_find hwf hf))
      have heq : ∀ c, refChildren (hset h a2 (.objN (stripXFields fs))) c =
          refChildren h c := by
        intro c
        rw [hcleq]
        exact nodeRefs_cleanNode h a2 _ hf c
      by_cases hab : a = a2
      · subst hab
        rcases strip_evolves _ (a :: seen) ((stripXFields fs).map Prod.snd ++ rest)
            hwf2 a with he | he
        · rw [he, hfind_hset_self h a _ _ hf, hcleq]
          exact cleanNode_clean (heapWF_find hwf hf)
        · rw [he, hfind_hset_self h a _ _ hf, hcleq]
          simp only [Option.map]
          rw [cleanNode_idem (heapWF_find hwf hf)]
          exact cleanNode_clean (heapWF_find hwf hf)
      · have hchild : ∀ c, c ∈ refChildren h a2 →
            GVal.ref c ∈ (stripXFields fs).map Prod.snd ++ rest := by
          intro c hc
          rw [refChildren, hf] at hc
          have hc2 : c ∈ refsOf (fs.map Prod.snd) := hc
          rw [← refsOf_stripXFields fs] at hc2
          exact List.mem_append.mpr (Or.inl (mem_refsOf.mp hc2))
        rcases List.mem_cons.mp hmem with heq2 | hmem2
        · have hb2 : b = a2 := by
            cases heq2
            rfl
          subst hb2
          rcases reachAvoid_insert b hra hab with hcase | ⟨c, hc, hrac⟩
          · exact absurd hcase reachAvoid_head_not_self
          · exact ih hwf2 a c (hchild c hc)
              (reachAvoid_congr heq hrac)
        · rcases reachAvoid_insert a2 hra hab with hcase | ⟨c, hc, hrac⟩
          · exact ih hwf2 a b (List.mem_append.mpr (Or.inr hmem2))
              (reachAvoid_congr heq hcase)
          · exact ih hwf2 a c (hchild c hc)
              (reachAvoid_congr heq hrac)

/-- C5: for every layer hitting a guard condition (`tm` absent, `tm.x`
absent or without the cyclic-loop marker, `tm.k` not a sequence of at
least two keyframes, or a non-positive cycle duration), a successful run
of `expandTmCycles` leaves that layer byte-for-byte unchanged at its
position, whether it sits in the top-level layer list or inside an
asset. -/
theorem c5_guard_unchanged (d d2 : JVal) (h : expandTmCycles d = .ok d2) :
    (∀ (ls : List JVal) (i : ℕ) (layer : JVal), docLayers d = some ls → ls[i]? = some layer →
        guardHit layer = true →
        ∃ ls2, docLayers d2 = some ls2 ∧ ls2[i]? = some layer) ∧
    (∀ (as : List JVal) (j : ℕ) (a : JVal) (ls : List JVal) (i : ℕ) (layer : JVal), docAssets d = some as → as[j]? = some a →
        assetLayerList a = some ls → ls[i]? = some layer →
        guardHit layer = true →
        ∃ as2 a2 ls2, docAssets d2 = some as2 ∧ as2[j]? = some a2 ∧
          assetLayerList a2 = some ls2 ∧ ls2[i]? = some layer) := by
  constructor
  · intro ls i layer hls hi hguard
    cases d with
    | obj dfs =>
        rw [docLayers] at hls
        cases hlay : lookupField dfs "layers" with
        | none => rw [hlay] at hls; cases hls
        | some lv =>
            rw [hlay] at hls
            cases lv with
            | arr ls0 =>
                have : ls0 = ls := by simpa using hls
                subst this
                obtain ⟨ls2, dfs2, hwl, rfl, hlk⟩ := expand_obj_layers dfs d2 ls0 hlay h
                obtain ⟨y, hy, hy2⟩ := mapM_ok_index processLayer ls0 ls2 hwl i layer hi
                rw [processLayer_guard layer hguard] at hy
                cases hy
                exact ⟨ls2, by rw [docLayers, hlk], hy2⟩
            | null => cases hls
            | bool c => cases hls
            | num c => cases hls
            | str c => cases hls
            | obj c => cases hls
    | null => simp [docLayers] at hls
    | bool b => simp [docLayers] at hls
    | num v => simp [docLayers] at hls
    | str s => simp [docLayers] at hls
    | arr xs => simp [docLayers] at hls
  · intro as j a ls i layer has hj hal hi hguard
    cases d with
    | obj dfs =>
        rw [docAssets] at has
        cases hav : lookupField dfs "assets" with
        | none => rw [hav] at has; cases has
        | some av =>
            rw [hav] at has
            cases av with
            | arr as0 =>
                have : as0 = as := by simpa using has
                subst this
                obtain ⟨as2, dfs2, hma, rfl, hak⟩ := expand_obj_assets dfs d2 as0 hav h
                obtain ⟨a2, ha2, ha2i⟩ := mapM_ok_index walkAsset as0 as2 hma j a hj
                obtain ⟨ls2, hwl2, hal2⟩ := walkAsset_spec a a2 ha2 ls hal
                obtain ⟨y, hy, hy2⟩ := mapM_ok_index processLayer ls ls2 hwl2 i layer hi
                rw [processLayer_guard layer hguard] at hy
                cases hy
                exact ⟨as2, a2, ls2, by rw [docAssets, hak], ha2i, hal2, hy2⟩
            | null => cases has
            | bool c => cases has
            | num c => cases has
            | str c => cases has
            | obj c => cases has
    | null => simp [docAssets] at has
    | bool b => simp [docAssets] at has
    | num v => simp [docAssets] at has
    | str s => simp [docAssets] at has
    | arr xs => simp [docAssets] at has
/-- C8: `stripRemainingExpressions` terminates on every object graph —
including cyclic and shared ones, as the well-founded definition of
`strip` over (unvisited addresses, worklist length) shows — and removes
the string-valued `x` field of every object reachable from the root;
moreover, on meeting an already-seen reference it still deletes a
string-valued `x` but does not descend again (the revisit equation). -/
theorem c8_strip_reachable_clean (h : Heap) (b a : ℕ) (hwf : heapWF h = true)
    (hra : Reaches h b a) :
    nodeClean (hfind (stripRemainingExpressions h (.ref b)) a) = true ∧
    (∀ (h2 : Heap) (seen : List ℕ) (c : ℕ) (rest : List GVal),
      seen.contains c = true →
      strip h2 seen (.ref c :: rest) = strip (cleanAt h2 c) seen rest) := by
  constructor
  · exact strip_reach_clean h [] [.ref b] hwf a b (by simp) hra
  · exact fun h2 seen c rest hs => strip_ref_seen h2 seen c rest hs

theorem c8_witness :
    nodeClean (hfind (stripRemainingExpressions heapCyc (.ref 0)) 1) = true ∧
    (∀ (h2 : Heap) (seen : List ℕ) (c : ℕ) (rest : List GVal),
      seen.contains c = true →
      strip h2 seen (.ref c :: rest) = strip (cleanAt h2 c) seen rest) :=
  c8_strip_reachable_clean heapCyc 0 1 (by decide)
    (ReachAvoid.step 0 1 1 (by decide) (by decide) (ReachAvoid.refl 1 (by decide)))

/-- C10: the stripping pass deletes only string-valued `x` fields: every
heap object is either untouched or has exactly its string-valued `x`
binding removed, and an object whose `x` holds a non-string value is
preserved byte-for-byte. -/
theorem c10_strip_frame (h : Heap) (root : GVal) (hwf : heapWF h = true) :
    (∀ a, hfind (stripRemainingExpressions h root) a = hfind h a ∨
      hfind (stripRemainingExpressions h root) a =
        Option.map cleanNode (hfind h a)) ∧
    (∀ a fs, hfind h a = some (.objN fs) →
      (∀ s, glookup fs "x" ≠ some (.prim (.strP s))) →
      hfind (stripRemainingExpressions h root) a = some (.objN fs)) := by
  have hev := fun a => strip_evolves h [] [root] hwf a
  constructor
  · exact hev
  · intro a fs hf hnx
    rw [stripRemainingExpressions]
    rcases hev a with he | he
    · rw [he, hf]
    · rw [he, hf]
      have hsx : stripXFields fs = fs := by
        rw [stripXFields]
        cases hg : glookup fs "x" with
        | none => rfl
        | some v =>
            cases v with
            | ref c => rfl
            | prim p =>
                cases p with
                | strP s => exact absurd hg (hnx s)
                | nullP => rfl
                | boolP c => rfl
                | numP q => rfl
      simp [cleanNode, hsx]

theorem c10_witness :
    hfind (stripRemainingExpressions heapNumX (.ref 0)) 0 =
      some (.objN [("x", .prim (.numP (some 5))), ("y", .prim (.strP "keep"))]) :=
  (c10_strip_frame heapNumX (.ref 0) (by decide)).2 0
    [("x", .prim (.numP (some 5))), ("y", .prim (.strP "keep"))] rfl
    (by intro s hcon; simp [glookup] at hcon)

/-- C2: on the end-to-end scenario document (one layer, `ip 0`, `op 100`,
a cyclic loop-out expression and keyframes at `t = 0` and `t = 25`) the
transform produces exactly ten keyframes with times
0, 25, 25, 50, 50, 75, 75, 100, 100, 125 and removes `tm.x`. -/
theorem c2_end_to_end :
    expandTmCycles c2doc = .ok c2out ∧
    firstLayerTmX c2out = none ∧
    (∃ ks, firstLayerTmK c2out = some (.arr ks) ∧ ks.length = 10 ∧
      ks.map kfT = [0, 25, 25, 50, 50, 75, 75, 100, 100, 125]) := by
  refine ⟨rfl, rfl, ?_⟩
  refine ⟨_, rfl, rfl, ?_⟩
  decide

/-- C4 counterexample: the null document is a valid JSON value on which
the claim promises normal completion, yet reading `null.layers` throws a
TypeError, modelled as an error result. -/
theorem c4_counterexample : expandTmCycles .null = .error () := rfl

theorem c4_witness : ∃ d2, expandTmCycles c4doc = .ok d2 :=
  c4_no_throw c4doc (by decide)

theorem c5_witness :
    ∃ ls2, docLayers (mkTopDoc guardLayer) = some ls2 ∧
      ls2[0]? = some guardLayer :=
  (c5_guard_unchanged (mkTopDoc guardLayer) (mkTopDoc guardLayer) (by rfl)).1
    [guardLayer] 0 guardLayer rfl rfl (by decide)

theorem c6_witness :
    expandTmCycles (mkTopDoc c2layer) = .ok (mkTopDoc c2layerOut) ∧
    expandTmCycles (mkAssetDoc c2layer) = .ok (mkAssetDoc c2layerOut) :=
  c6_asset_traversal c2layer c2layerOut (by rfl)

theorem c7_witness : expandTmCycles c2out = .ok c2out :=
  c7_idempotent c2doc c2out (by rfl)

/-- C9: the two `expandTmCycles` implementations — the one of the v8
block file and the one of the unnamed block file — are extensionally
equal: they agree on every input document. -/
theorem c9_duplicate_equal : ∀ d : JVal, expandTmCyclesU d = expandTmCycles d :=
  fun _ => rfl

theorem kfNum_tOf (kf : JVal) (h : kfNum kf = true) :
    tOf kf = some (.num (some (kfT kf))) := by
  cases kf with
  | obj fs =>
      rw [kfNum] at h
      cases ht : lookupField fs "t" with
      | none => rw [ht] at h; simp at h
      | some tv =>
          rw [ht] at h
          cases tv with
          | num v =>
              cases v with
              | none => simp at h
              | some q => rw [tOf, ht, kfT, tOf, ht]
          | null => simp at h
          | bool c => simp at h
          | str c => simp at h
          | arr c => simp at h
          | obj c => simp at h
  | null => simp [kfNum] at h
  | bool b => simp [kfNum] at h
  | num v => simp [kfNum] at h
  | str s => simp [kfNum] at h
  | arr xs => simp [kfNum] at h

theorem kfNum_ne_null (kf : JVal) (h : kfNum kf = true) : kf ≠ .null := by
  intro he
  rw [he] at h
  simp [kfNum] at h

theorem kfNum_good (kf : JVal) (h : kfNum kf = true) : goodJson kf = true := by
  cases kf with
  | obj fs =>
      rw [kfNum] at h
      simp only [Bool.and_eq_true] at h
      exact h.2
  | null => simp [kfNum] at h
  | bool b => simp [kfNum] at h
  | num v => simp [kfNum] at h
  | str s => simp [kfNum] at h
  | arr xs => simp [kfNum] at h

theorem kfT_setObjT (kf : JVal) (q : ℚ) (h : kfNum kf = true) :
    kfT (setObjT kf q) = q := by
  cases kf with
  | obj fs =>
      simp [setObjT, kfT, tOf, lookup_setField_eq, jq]
  | null => simp [kfNum] at h
  | bool b => simp [kfNum] at h
  | num v => simp [kfNum] at h
  | str s => simp [kfNum] at h
  | arr xs => simp [kfNum] at h

theorem shiftKf_eval (cd : ℚ) (c : ℕ) (kf : JVal) (hkf : kfNum kf = true) :
    shiftKf (some (qmul (qofNat c) cd)) kf =
      .ok (setObjT kf (kfT kf + (c : ℚ) * cd)) := by
  cases kf with
  | obj fs =>
      rw [shiftKf_obj]
      have hg : goodJsonFields fs = true := kfNum_good (.obj fs) hkf
      have ht : lookupField fs "t" = some (.num (some (kfT (.obj fs)))) :=
        kfNum_tOf (.obj fs) hkf
      rw [jsonRoundFields_id fs hg, ht]
      show Except.ok (JVal.obj (setField fs "t"
          (.num (some (qadd (kfT (.obj fs)) (qmul (qofNat c) cd)))))) =
        Except.ok (JVal.obj (setField fs "t"
          (.num (some (kfT (.obj fs) + (c : ℚ) * cd)))))
      rw [qadd_eq, qmul_eq, qofNat_eq]
  | null => simp [kfNum] at hkf
  | bool b => simp [kfNum] at hkf
  | num v => simp [kfNum] at hkf
  | str s => simp [kfNum] at hkf
  | arr xs => simp [kfNum] at hkf

theorem buildExpanded_eval (n : ℕ) (cd : ℚ) (kfs : List JVal)
    (hnum : kfs.all kfNum = true) :
    buildExpanded n (some cd) kfs = .ok (expandedKfs n cd kfs) := by
  have hblock : ∀ c ∈ List.range n, kfs.mapM
      (shiftKf ((some cd).map (fun cdq => qmul (qofNat c) cdq))) =
      .ok (shiftedBlock cd kfs c) := by
    intro c _
    exact mapM_ok_map _ _ kfs
      (fun kf hkf => shiftKf_eval cd c kf (List.all_eq_true.mp hnum kf hkf))
  rw [buildExpanded]
  rw [mapM_ok_map _ (shiftedBlock cd kfs) (List.range n) hblock]
  rfl

theorem expandedKfs_length (n : ℕ) (cd : ℚ) (kfs : List JVal) :
    (expandedKfs n cd kfs).length = n * kfs.length := by
  induction n with
  | zero => simp [expandedKfs]
  | succ m ih =>
      rw [expandedKfs, List.range_succ, List.map_append, List.flatten_append]
      simp only [List.map_cons, List.map_nil, List.flatten_cons,
        List.flatten_nil, List.append_nil, List.length_append]
      rw [expandedKfs] at ih
      rw [ih, shiftedBlock, List.length_map, Nat.succ_mul]

theorem flatten_uniform_get {α : Type} (len : ℕ) :
    ∀ (bs : List (List α)) (c i : ℕ), (∀ b ∈ bs, b.length = len) → i < len →
      bs.flatten[c * len + i]? = bs[c]?.bind (fun b => b[i]?) := by
  intro bs
  induction bs with
  | nil => intro c i _ _; simp
  | cons b rest ih =>
      intro c i hu hi
      have hb : b.length = len := hu b (List.mem_cons_self b rest)
      cases c with
      | zero =>
          simp only [Nat.zero_mul, Nat.zero_add, List.flatten_cons,
            List.getElem?_cons_zero, Option.some_bind]
          rw [List.getElem?_append_left (by omega)]
      | succ m =>
          simp only [List.flatten_cons, List.getElem?_cons_succ]
          have hms : (m + 1) * len + i = b.length + (m * len + i) := by
            rw [hb, Nat.succ_mul]
            ring
          rw [hms, List.getElem?_append_right (Nat.le_add_right _ _),
            Nat.add_sub_cancel_left]
          exact ih m i (fun x hx => hu x (List.mem_cons_of_mem b hx)) hi

theorem expandedKfs_get (n : ℕ) (cd : ℚ) (kfs : List JVal) (c i : ℕ)
    (hc : c < n) (hi : i < kfs.length) :
    (expandedKfs n cd kfs)[c * kfs.length + i]? =
      some (setObjT (kfs.get ⟨i, hi⟩) (kfT (kfs.get ⟨i, hi⟩) + (c : ℚ) * cd)) := by
  rw [expandedKfs, flatten_uniform_get kfs.length _ c i ?_ hi]
  · rw [List.getElem?_map, List.getElem?_range hc]
    show (shiftedBlock cd kfs c)[i]? = _
    rw [shiftedBlock, List.getElem?_map, List.getElem?_eq_getElem hi]
    simp [List.get_eq_getElem]
  · intro b hb
    obtain ⟨c2, _, hc2⟩ := List.mem_map.mp hb
    rw [← hc2, shiftedBlock, List.length_map]

theorem chain_shifted (q : ℚ) :
    ∀ (kfs : List JVal), kfs.all kfNum = true →
      List.Chain' (fun a b => kfT a ≤ kfT b) kfs →
      List.Chain' (fun a b => kfT a ≤ kfT b)
        (kfs.map (fun kf => setObjT kf (kfT kf + q))) := by
  intro kfs
  induction kfs with
  | nil => intro _ _; simp
  | cons a rest ih =>
      intro hnum hch
      cases rest with
      | nil => simp
      | cons b rest2 =>
          simp only [List.all_cons, Bool.and_eq_true] at hnum
          rw [List.map_cons, List.map_cons]
          refine List.chain'_cons.mpr ⟨?_, ?_⟩
          · rw [kfT_setObjT a _ hnum.1, kfT_setObjT b _ hnum.2.1]
            have hab := (List.chain'_cons.mp hch).1
            linarith
          · have hrec := ih (by
              simp only [List.all_cons, Bool.and_eq_true]
              exact hnum.2) (List.chain'_cons.mp hch).2
            simpa using hrec

theorem shiftedBlock_ne_nil (cd : ℚ) (kfs : List JVal) (c : ℕ)
    (hne : kfs ≠ []) : shiftedBlock cd kfs c ≠ [] := by
  rw [shiftedBlock]
  simpa using hne

theorem expandedKfs_getLast (n : ℕ) (cd : ℚ) (kfs : List JVal)
    (hne : kfs ≠ []) :
    (expandedKfs (n + 1) cd kfs).getLast? = (shiftedBlock cd kfs n).getLast? := by
  rw [expandedKfs, List.range_succ, List.map_append, List.flatten_append]
  simp only [List.map_cons, List.map_nil, List.flatten_cons, List.flatten_nil,
    List.append_nil]
  exact List.getLast?_append_of_ne_nil _ (shiftedBlock_ne_nil cd kfs n hne)

theorem expandedKfs_chain (cd : ℚ) (kfs : List JVal)
    (hnum : kfs.all kfNum = true)
    (hch : List.Chain' (fun a b => kfT a ≤ kfT b) kfs)
    (hne : kfs ≠ [])
    (hcd : cd = kfT (kfs.getLastD .null) - kfT (kfs.headD .null)) :
    ∀ n, List.Chain' (fun a b => kfT a ≤ kfT b) (expandedKfs n cd kfs) := by
  intro n
  induction n with
  | zero => simp [expandedKfs]
  | succ m ih =>
      rw [expandedKfs, List.range_succ, List.map_append, List.flatten_append]
      simp only [List.map_cons, List.map_nil, List.flatten_cons,
        List.flatten_nil, List.append_nil]
      refine List.chain'_append.mpr ⟨?_, ?_, ?_⟩
      · exact ih
      · exact chain_shifted _ kfs hnum hch
      · intro x hx y hy
        cases m with
        | zero => simp [expandedKfs] at hx
        | succ p =>
            rw [show ((List.range (p + 1)).map (shiftedBlock cd kfs)).flatten =
              expandedKfs (p + 1) cd kfs from rfl,
              expandedKfs_getLast p cd kfs hne] at hx
            rw [shiftedBlock, List.getLast?_map] at hx
            rw [shiftedBlock, List.head?_map] at hy
            obtain ⟨lk, hlk⟩ := Option.isSome_iff_exists.mp
              (List.getLast?_isSome.mpr hne)
            obtain ⟨hk, hhk⟩ := Option.isSome_iff_exists.mp
              (List.head?_isSome.mpr hne)
            rw [hlk] at hx
            rw [hhk] at hy
            simp only [Option.mem_def, Option.map_some'] at hx hy
            have hlkD : kfs.getLastD .null = lk := by
              rw [List.getLastD_eq_getLast?, hlk]
              rfl
            have hhkD : kfs.headD .null = hk := by
              rw [List.headD_eq_head?, hhk]
              rfl
            have hlkN : kfNum lk = true := by
              have := List.all_eq_true.mp hnum _ (getLastD_mem kfs .null hne)
              rwa [hlkD] at this
            have hhkN : kfNum hk = true := by
              have := List.all_eq_true.mp hnum _ (headD_mem kfs .null hne)
              rwa [hhkD] at this
            obtain rfl : x = setObjT lk (kfT lk + (p : ℚ) * cd) :=
              (Option.some.inj hx).symm
            obtain rfl : y = setObjT hk (kfT hk + ((p + 1 : ℕ) : ℚ) * cd) :=
              (Option.some.inj hy).symm
            rw [kfT_setObjT lk _ hlkN, kfT_setObjT hk _ hhkN]
            rw [hlkD, hhkD] at hcd
            push_cast
            linarith

theorem expandedKfs_head (n : ℕ) (cd : ℚ) (kfs : List JVal)
    (hn : 1 ≤ n) (hne : kfs ≠ []) (hnum : kfs.all kfNum = true) :
    kfT ((expandedKfs n cd kfs).headD .null) = kfT (kfs.headD .null) := by
  cases kfs with
  | nil => exact absurd rfl hne
  | cons k0 krest =>
      have hk0 : kfNum k0 = true :=
        List.all_eq_true.mp hnum k0 (List.mem_cons_self k0 krest)
      have h0 := expandedKfs_get n cd (k0 :: krest) 0 0 (by omega) (by simp)
      have h0b : (expandedKfs n cd (k0 :: krest))[0]? =
          some (setObjT k0 (kfT k0)) := by simpa using h0
      rw [List.headD_eq_head?, List.head?_eq_getElem?, h0b, Option.getD_some,
        kfT_setObjT k0 _ hk0]
      rfl

theorem truthy_of_marker (s : String) (h : strIncludes s "loopOut" = true) :
    truthy (some (.str s)) = true := by
  cases s with
  | mk data =>
      cases data with
      | nil => exact absurd h (by decide)
      | cons c r =>
          rw [truthy]
          simp only [bne_iff_ne, ne_eq, decide_eq_true_eq]
          intro he
          have h2 : c :: r = ([] : List Char) := congrArg String.data he
          simp at h2

theorem qle0Opt_sub_false (qL qF : ℚ) (h : 0 < qL - qF) :
    qle0Opt (some (qsub qL qF)) = false := by
  rw [qle0Opt, qsub_eq]
  rw [← Bool.not_eq_true]
  intro hc
  have := (qle0_iff (qL - qF)).mp hc
  linarith

theorem processLayer_expand (lfs tfs : List (String × JVal)) (kfs : List JVal)
    (xs : String) (cd : ℚ) (n : ℕ)
    (htm : lookupField lfs "tm" = some (.obj tfs))
    (hx : lookupField tfs "x" = some (.str xs))
    (hmk : strIncludes xs "loopOut" = true)
    (hkl : lookupField tfs "k" = some (.arr kfs))
    (hlen : 2 ≤ kfs.length)
    (hnum : kfs.all kfNum = true)
    (hcd : cd = kfT (kfs.getLastD .null) - kfT (kfs.headD .null))
    (hcd0 : 0 < cd)
    (hn : n = emittedCycles lfs cd) :
    processLayer (.obj lfs) = .ok (.obj (setField lfs "tm" (.obj (deleteField
      (setField tfs "k" (.arr (expandedKfs n cd kfs))) "x")))) := by
  subst hn
  subst hcd
  rw [processLayer]
  simp only [htm, hx]
  have htr : truthy (some (.str xs)) = true := truthy_of_marker xs hmk
  simp only [htr, Bool.not_true, Bool.false_eq_true, if_false]
  simp only [bind, Except.bind, Except.pure, pure]
  simp only [hmk, Bool.not_true, Bool.false_eq_true, if_false]
  simp only [hkl]
  have hlen2 : ¬ (kfs.length < 2) := by omega
  simp only [hlen2, if_false, if_neg]
  have hne : kfs ≠ [] := by
    intro he
    rw [he] at hlen
    simp at hlen
  have hlkN : kfNum (kfs.getLastD .null) = true :=
    List.all_eq_true.mp hnum _ (getLastD_mem kfs .null hne)
  have hhkN : kfNum (kfs.headD .null) = true :=
    List.all_eq_true.mp hnum _ (headD_mem kfs .null hne)
  rw [jsGet_eq_tOf _ (kfNum_ne_null _ hlkN), jsGet_eq_tOf _ (kfNum_ne_null _ hhkN)]
  simp only [Except.bind]
  rw [kfNum_tOf _ hlkN, kfNum_tOf _ hhkN]
  rw [show jsSub (some (.num (some (kfT (kfs.getLastD .null)))))
      (some (.num (some (kfT (kfs.headD .null))))) =
      some (qsub (kfT (kfs.getLastD .null)) (kfT (kfs.headD .null))) from rfl]
  rw [if_neg (by
    rw [qle0Opt_sub_false _ _ hcd0]
    exact Bool.false_ne_true)]
  rw [qsub_eq]
  rw [buildExpanded_eval _ _ kfs hnum]
  rfl

theorem lookup_deleteField_ne (fs : List (String × JVal)) (k k2 : String)
    (hne : k2 ≠ k) : lookupField (deleteField fs k) k2 = lookupField fs k2 := by
  induction fs with
  | nil => rfl
  | cons f r ih =>
      obtain ⟨k1, v1⟩ := f
      by_cases hk : k1 = k
      · subst hk
        have hk12 : k1 ≠ k2 := fun h => hne h.symm
        simpa [deleteField, lookupField, hk12] using ih
      · by_cases hk2 : k1 = k2
        · subst hk2
          simp [deleteField, lookupField, hk]
        · simpa [deleteField, lookupField, hk, hk2] using ih

theorem expand_layer_at (d d2 : JVal) (ls : List JVal) (i : ℕ)
    (layer layer2 : JVal) (hrun : expandTmCycles d = .ok d2)
    (hdl : docLayers d = some ls) (hi : ls[i]? = some layer)
    (hpl : processLayer layer = .ok layer2) :
    ∃ ls2, docLayers d2 = some ls2 ∧ ls2[i]? = some layer2 := by
  cases d with
  | obj dfs =>
      rw [docLayers] at hdl
      cases hlay : lookupField dfs "layers" with
      | none => rw [hlay] at hdl; cases hdl
      | some lv =>
          rw [hlay] at hdl
          cases lv with
          | arr ls0 =>
              have : ls0 = ls := by simpa using hdl
              subst this
              obtain ⟨ls2, dfs2, hwl, rfl, hlk⟩ :=
                expand_obj_layers dfs d2 ls0 hlay hrun
              obtain ⟨y, hy, hy2⟩ := mapM_ok_index processLayer ls0 ls2 hwl i layer hi
              rw [hpl] at hy
              cases hy
              exact ⟨ls2, by rw [docLayers, hlk], hy2⟩
          | null => cases hdl
          | bool c => cases hdl
          | num c => cases hdl
          | str c => cases hdl
          | obj c => cases hdl
  | null => simp [docLayers] at hdl
  | bool b => simp [docLayers] at hdl
  | num v => simp [docLayers] at hdl
  | str s => simp [docLayers] at hdl
  | arr xs => simp [docLayers] at hdl

theorem expand_asset_layer_at (d d2 : JVal) (as : List JVal) (j : ℕ)
    (a : JVal) (als : List JVal) (i : ℕ) (layer layer2 : JVal)
    (hrun : expandTmCycles d = .ok d2) (hda : docAssets d = some as)
    (hj : as[j]? = some a) (hal : assetLayerList a = some als)
    (hi : als[i]? = some layer) (hpl : processLayer layer = .ok layer2) :
    ∃ as2 a2 als2, docAssets d2 = some as2 ∧ as2[j]? = some a2 ∧
      assetLayerList a2 = some als2 ∧ als2[i]? = some layer2 := by
  cases d with
  | obj dfs =>
      rw [docAssets] at hda
      cases hav : lookupField dfs "assets" with
      | none => rw [hav] at hda; cases hda
      | some av =>
          rw [hav] at hda
          cases av with
          | arr as0 =>
              have : as0 = as := by simpa using hda
              subst this
              obtain ⟨as2, dfs2, hma, rfl, hak⟩ :=
                expand_obj_assets dfs d2 as0 hav hrun
              obtain ⟨a2, ha2, ha2i⟩ := mapM_ok_index walkAsset as0 as2 hma j a hj
              obtain ⟨ls2, hwl2, hal2⟩ := walkAsset_spec a a2 ha2 als hal
              obtain ⟨y, hy, hy2⟩ := mapM_ok_index processLayer als ls2 hwl2 i layer hi
              rw [hpl] at hy
              cases hy
              exact ⟨as2, a2, ls2, by rw [docAssets, hak], ha2i, hal2, hy2⟩
          | null => cases hda
          | bool c => cases hda
          | num c => cases hda
          | str c => cases hda
          | obj c => cases hda
  | null => simp [docAssets] at hda
  | bool b => simp [docAssets] at hda
  | num v => simp [docAssets] at hda
  | str s => simp [docAssets] at hda
  | arr xs => simp [docAssets] at hda

/-- C1 (amended): for an eligible layer — `tm.x` a string containing the
loopOut marker, `tm.k` an array of at least two NaN-free object keyframes
with numeric times in ascending order, positive cycle duration `cd` — and
provided the emitted cycle count `n` is at least 1 (the count formula
`ceil((op - ip) / cd) + 1` can be non-positive, in which case the loop
emits nothing; see the counterexample), the expansion replaces `tm.k` by
`n` concatenated copies of the keyframe list, copy `c` shifted by
`c * cd`: the result has length `n * kfs.length`, is non-decreasing in
`t`, starts at the original first time, each entry at position
`c * kfs.length + i` is the deep copy of keyframe `i` with only its `t`
set to `t + c * cd`, and `tm.x` is gone — both for a layer found in the
top-level layer list and for one found inside an asset. -/
theorem c1_expansion (lfs tfs : List (String × JVal)) (kfs : List JVal)
    (xs : String) (cd : ℚ) (n : ℕ)
    (htm : lookupField lfs "tm" = some (.obj tfs))
    (hx : lookupField tfs "x" = some (.str xs))
    (hmk : strIncludes xs "loopOut" = true)
    (hkl : lookupField tfs "k" = some (.arr kfs))
    (hlen : 2 ≤ kfs.length)
    (hnum : kfs.all kfNum = true)
    (hch : List.Chain' (fun a b => kfT a ≤ kfT b) kfs)
    (hcd : cd = kfT (kfs.getLastD .null) - kfT (kfs.headD .null))
    (hcd0 : 0 < cd)
    (hn : n = emittedCycles lfs cd)
    (hn1 : 1 ≤ n) :
    ((expandedKfs n cd kfs).length = n * kfs.length ∧
     List.Chain' (fun a b => kfT a ≤ kfT b) (expandedKfs n cd kfs) ∧
     kfT ((expandedKfs n cd kfs).headD .null) = kfT (kfs.headD .null) ∧
     lookupField (deleteField (setField tfs "k"
       (.arr (expandedKfs n cd kfs))) "x") "x" = none ∧
     lookupField (deleteField (setField tfs "k"
       (.arr (expandedKfs n cd kfs))) "x") "k" =
       some (.arr (expandedKfs n cd kfs)) ∧
     ∀ (c i : ℕ) (hc : c < n) (hi : i < kfs.length),
       (expandedKfs n cd kfs)[c * kfs.length + i]? =
         some (setObjT (kfs.get ⟨i, hi⟩) (kfT (kfs.get ⟨i, hi⟩) + (c : ℚ) * cd))) ∧
    (∀ (d d2 : JVal) (ls : List JVal) (i : ℕ),
      expandTmCycles d = .ok d2 → docLayers d = some ls →
      ls[i]? = some (.obj lfs) →
      ∃ ls2, docLayers d2 = some ls2 ∧
        ls2[i]? = some (.obj (setField lfs "tm" (.obj (deleteField
          (setField tfs "k" (.arr (expandedKfs n cd kfs))) "x"))))) ∧
    (∀ (d d2 : JVal) (as : List JVal) (j : ℕ) (a : JVal)
        (als : List JVal) (i : ℕ),
      expandTmCycles d = .ok d2 → docAssets d = some as → as[j]? = some a →
      assetLayerList a = some als → als[i]? = some (.obj lfs) →
      ∃ as2 a2 als2, docAssets d2 = some as2 ∧ as2[j]? = some a2 ∧
        assetLayerList a2 = some als2 ∧
        als2[i]? = some (.obj (setField lfs "tm" (.obj (deleteField
          (setField tfs "k" (.arr (expandedKfs n cd kfs))) "x"))))) := by
  have hne : kfs ≠ [] := by
    intro he
    rw [he] at hlen
    simp at hlen
  have hpl := processLayer_expand lfs tfs kfs xs cd n htm hx hmk hkl hlen
    hnum hcd hcd0 hn
  refine ⟨⟨expandedKfs_length n cd kfs,
    expandedKfs_chain cd kfs hnum hch hne hcd n,
    expandedKfs_head n cd kfs hn1 hne hnum,
    lookup_deleteField _ _,
    by rw [lookup_deleteField_ne _ _ _ (by decide), lookup_setField_eq],
    fun c i hc hi => expandedKfs_get n cd kfs c i hc hi⟩, ?_, ?_⟩
  · intro d d2 ls i hrun hdl hi
    exact expand_layer_at d d2 ls i _ _ hrun hdl hi hpl
  · intro d d2 as j a als i hrun hda hj hal hi
    exact expand_asset_layer_at d d2 as j a als i _ _ hrun hda hj hal hi hpl

theorem c1_witness :
    ((expandedKfs 5 25 c1kfs).length = 5 * c1kfs.length ∧
     List.Chain' (fun a b => kfT a ≤ kfT b) (expandedKfs 5 25 c1kfs) ∧
     kfT ((expandedKfs 5 25 c1kfs).headD .null) = kfT (c1kfs.headD .null) ∧
     lookupField (deleteField (setField c1tmFields "k"
       (.arr (expandedKfs 5 25 c1kfs))) "x") "x" = none ∧
     lookupField (deleteField (setField c1tmFields "k"
       (.arr (expandedKfs 5 25 c1kfs))) "x") "k" =
       some (.arr (expandedKfs 5 25 c1kfs)) ∧
     ∀ (c i : ℕ) (hc : c < 5) (hi : i < c1kfs.length),
       (expandedKfs 5 25 c1kfs)[c * c1kfs.length + i]? =
         some (setObjT (c1kfs.get ⟨i, hi⟩)
           (kfT (c1kfs.get ⟨i, hi⟩) + (c : ℚ) * 25))) ∧
    (∃ ls2, docLayers (mkTopDoc c2layerOut) = some ls2 ∧
      ls2[0]? = some (.obj (setField c1fields "tm" (.obj (deleteField
        (setField c1tmFields "k" (.arr (expandedKfs 5 25 c1kfs))) "x"))))) :=
  have happ := c1_expansion c1fields c1tmFields c1kfs "loopOut(\x27cycle\x27)"
    25 5 rfl rfl rfl rfl (by decide) (by decide)
    (by
      refine List.chain'_cons.mpr ⟨?_, List.chain'_singleton _⟩
      show (0 : ℚ) ≤ 25
      norm_num)
    (by
      show (25 : ℚ) = 25 - 0
      norm_num)
    (by norm_num) rfl (by decide)
  ⟨happ.1, happ.2.1 (mkTopDoc (.obj c1fields)) (mkTopDoc c2layerOut)
    [.obj c1fields] 0 rfl rfl rfl⟩

/-- C1 counterexample: `negDurLayer` is eligible in the sense of the
claim — loopOut marker present, two object keyframes in ascending order,
cycle duration `25 > 0`, so no guard fires (`guardHit` is false) — yet
because its out-point 50 lies before its in-point 100 the cycle count
`ceil(-50 / 25) + 1 = -1` makes the expansion loop run zero times: the
emitted `tm.k` is the empty array, so it has no first keyframe whose `t`
could equal the original first keyframe's `t`, and its length 0 is not
`cycles * original_length` for the formula value `-1`. -/
theorem c1_counterexample :
    guardHit negDurLayer = false ∧
    expandTmCycles (mkTopDoc negDurLayer) = .ok (mkTopDoc negDurLayerOut) ∧
    firstLayerTmK (mkTopDoc negDurLayer) =
      some (.arr [.obj [("t", jq 0)], .obj [("t", jq 25)]]) ∧
    firstLayerTmK (mkTopDoc negDurLayerOut) = some (.arr []) ∧
    firstLayerTmX (mkTopDoc negDurLayerOut) = none :=
  ⟨rfl, rfl, rfl, rfl, rfl⟩

/-- C3 counterexample: on `negDurLayer` (out-point 50 before in-point
100) the claimed cycle count `ceil((op - ip) / cycleDur) + 1` evaluates
to `ceil(-50 / 25) + 1 = -1`, but the `for` loop emits zero copies — the
number of emitted copies (0, giving an empty `tm.k`) differs from the
formula value `-1`. -/
theorem c3_counterexample :
    negDurLayer = .obj negDurFields ∧
    (jsCeil (jsDivQ (jsSub (effOp negDurFields) (effIp negDurFields))
      (some 25))).map (fun z => z + 1) = some (-1) ∧
    emittedCycles negDurFields 25 = 0 ∧
    processLayer negDurLayer = .ok negDurLayerOut ∧
    firstLayerTmK (mkTopDoc negDurLayerOut) = some (.arr []) :=
  ⟨rfl, rfl, rfl, rfl, rfl⟩

/-- C3 (amended): for an eligible layer with numeric effective `op` and
`ip`, the number of emitted cycle copies is the non-negative clamp
`(ceil((op - ip) / cycleDur) + 1).toNat` of the claimed formula (the two
agree exactly when the formula is non-negative), where `op` defaults to
900 and `ip` to 0 whenever the respective field is absent or falsy. -/
theorem c3_cycle_count (lfs tfs : List (String × JVal)) (kfs : List JVal)
    (xs : String) (cd : ℚ) (n : ℕ) (opq ipq : ℚ)
    (htm : lookupField lfs "tm" = some (.obj tfs))
    (hx : lookupField tfs "x" = some (.str xs))
    (hmk : strIncludes xs "loopOut" = true)
    (hkl : lookupField tfs "k" = some (.arr kfs))
    (hlen : 2 ≤ kfs.length)
    (hnum : kfs.all kfNum = true)
    (hcd : cd = kfT (kfs.getLastD .null) - kfT (kfs.headD .null))
    (hcd0 : 0 < cd)
    (hn : n = emittedCycles lfs cd)
    (hop : jsToNum (effOp lfs) = some opq)
    (hip : jsToNum (effIp lfs) = some ipq) :
    n = (⌈(opq - ipq) / cd⌉ + 1).toNat ∧
    (truthy (lookupField lfs "op") = false → effOp lfs = some (jq 900)) ∧
    (truthy (lookupField lfs "ip") = false → effIp lfs = some (jq 0)) ∧
    processLayer (.obj lfs) = .ok (.obj (setField lfs "tm" (.obj (deleteField
      (setField tfs "k" (.arr (expandedKfs n cd kfs))) "x")))) ∧
    (expandedKfs n cd kfs).length = n * kfs.length := by
  have hcdne : cd ≠ 0 := by
    intro h0
    rw [h0] at hcd0
    exact absurd hcd0 (lt_irrefl 0)
  refine ⟨?_, ?_, ?_,
    processLayer_expand lfs tfs kfs xs cd n htm hx hmk hkl hlen hnum hcd hcd0 hn,
    expandedKfs_length n cd kfs⟩
  · subst hn
    rw [emittedCycles]
    have h1 : jsSub (effOp lfs) (effIp lfs) = some (qsub opq ipq) := by
      simp only [jsSub, hop, hip]
    have h2 : jsDivQ (some (qsub opq ipq)) (some cd) =
        some (qdiv (qsub opq ipq) cd) := by
      simp only [jsDivQ]
      rw [if_neg hcdne]
    rw [h1, h2]
    simp only [jsCeil, Option.map_some', cyclesIters]
    rw [ratCeil_eq, qdiv_eq _ _ hcdne, qsub_eq]
  · intro ht
    simp [effOp, ht]
  · intro ht
    simp [effIp, ht]

theorem c3_witness :
    37 = (⌈((900 : ℚ) - 0) / 25⌉ + 1).toNat ∧
    (truthy (lookupField c3fields "op") = false →
      effOp c3fields = some (jq 900)) ∧
    (truthy (lookupField c3fields "ip") = false →
      effIp c3fields = some (jq 0)) ∧
    processLayer (.obj c3fields) = .ok (.obj (setField c3fields "tm"
      (.obj (deleteField (setField c3tmFields "k"
        (.arr (expandedKfs 37 25 c3kfs))) "x")))) ∧
    (expandedKfs 37 25 c3kfs).length = 37 * c3kfs.length :=
  c3_cycle_count c3fields c3tmFields c3kfs "loopOut" 25 37 900 0
    rfl rfl rfl rfl (by decide) (by decide)
    (by
      show (25 : ℚ) = 25 - 0
      norm_num)
    (by norm_num) rfl rfl rfl
